import Mathlib

/-!
Verification of `lib/deploy/stepFunctions/compileStateMachines.js`
(innomizetech/serverless-step-functions).

The JavaScript source is shallowly embedded: JSON-like definition documents
become the inductive type `Json`, the mutating generator
`getIntrinsicFunctions` becomes the pure state-passing function `extract`
(returning the mutated tree, the yielded token/reference pairs, and the
fresh-name counter), and the surrounding `compileStateMachines` pipeline
becomes `compileOne`/`compileAll` over an explicit collaborator context.
External collaborators (schema validation, ASL linting, name translation,
version resolution, logical-id derivation) are passed as explicit function
parameters, matching the spec's dependency-injection reading.
-/

set_option maxHeartbeats 1000000

namespace SSM

/-- A JSON-like definition-document value: JavaScript scalars, arrays and
objects.  Object member lists keep insertion order, matching JS string-keyed
property enumeration order; numbers are modelled as integers. -/
inductive Json where
  | null : Json
  | bool (b : Bool) : Json
  | num (n : Int) : Json
  | str (s : String) : Json
  | arr (xs : List Json) : Json
  | obj (kvs : List (String × Json)) : Json

namespace Json

/-- Modelled from the spec: the Intrinsic Reference predicate `isIntrinsic`
lives in `lib/utils/aws.js`, which is not part of the provided sources.  Per
the spec it recognises "a mapping ... a single well-known key naming a
platform function" (examples in source comments and spec: `{Ref: 'MyTopic'}`,
`{"Fn::GetAtt": [...]}`): an object with a single key that is `Ref` or starts
with `Fn::`. -/
def fnColonColon (cs : List Char) : Bool :=
  match cs with
  | 'F' :: 'n' :: ':' :: ':' :: _ => true
  | _ => false

def isIntrinsic : Json → Bool
  | .obj [(k, _)] => k == "Ref" || fnColonColon k.data
  | _ => false

/-- Modelled from the spec: `randomName` draws a random 10-character
alphanumeric string from the `chance` library (external).  The spec requires
tokens to be unique within one compilation pass and recommends replacing the
random supply by a deterministic injective one; we use a counter-indexed
injective supply. -/
def tokenName (n : Nat) : String :=
  String.mk ('v' :: List.replicate n 'x')

/-- The `${token}` marker string that replaces an extracted intrinsic node
(source line 53: ``obj[key] = `${'$'}{paramName}` ``). -/
def marker (t : String) : String :=
  "$" ++ "\x7b" ++ t ++ "\x7d"

/-- JavaScript truthiness of a definition-document value (used by the source
for `if (stateMachineObj.definition)`, `if (stateMachineObj.dependsOn)`). -/
def jsTruthy : Json → Bool
  | .null => false
  | .bool b => b
  | .num n => n != 0
  | .str s => s != ""
  | .arr _ => true
  | .obj _ => true

end Json

open Json

mutual

/-- Embedding of the generator `getIntrinsicFunctions(obj)` (source lines
36–63) run to completion: `for (const key in obj)` iterates the entries of an
object, or the index/element entries of an array, and applies the per-value
branch `extractVal` to each entry's value.  Returns the mutated tree, the
yielded `[paramName, intrinsicFunction]` pairs in yield order, and the
fresh-name counter.  Scalars have no own enumerable properties that matter
(iterating a string's characters yields nothing), so they are untouched. -/
def extract (c : Nat) : Json → Json × List (String × Json) × Nat
  | .obj kvs =>
    let r := extractMembers c kvs
    (.obj r.1, r.2.1, r.2.2)
  | .arr xs =>
    let r := extractEntries c xs
    (.arr r.1, r.2.1, r.2.2)
  | v => (v, [], c)

/-- The per-entry body of the `for (const key in obj)` loop (source lines
42–60): an array value has each of its elements recursed into with the full
generator (`getIntrinsicFunctions(value[idx])`, line 45) — the elements
themselves are never tested against `isIntrinsic`; an intrinsic value is
replaced in place by a `${token}` marker string and yielded (lines 50–54); any
other object value is recursed into (lines 55–59); scalars are untouched. -/
def extractVal (c : Nat) : Json → Json × List (String × Json) × Nat
  | .arr xs =>
    let r := extractRoots c xs
    (.arr r.1, r.2.1, r.2.2)
  | v =>
    if isIntrinsic v then
      (.str (marker (tokenName c)), [(tokenName c, v)], c + 1)
    else
      match v with
      | .obj kvs => extract c (.obj kvs)
      | v => (v, [], c)

/-- Object members processed left to right, values through `extractVal`. -/
def extractMembers (c : Nat) :
    List (String × Json) → List (String × Json) × List (String × Json) × Nat
  | [] => ([], [], c)
  | (k, v) :: rest =>
    let r := extractVal c v
    let r2 := extractMembers r.2.2 rest
    ((k, r.1) :: r2.1, r.2.1 ++ r2.2.1, r2.2.2)

/-- Array entries processed in index order, values through `extractVal`
(this is the `for (const key in obj)` loop when `obj` is itself an array). -/
def extractEntries (c : Nat) :
    List Json → List Json × List (String × Json) × Nat
  | [] => ([], [], c)
  | v :: rest =>
    let r := extractVal c v
    let r2 := extractEntries r.2.2 rest
    (r.1 :: r2.1, r.2.1 ++ r2.2.1, r2.2.2)

/-- Elements of an array-valued entry, each passed to the full generator
`getIntrinsicFunctions` (source line 45). -/
def extractRoots (c : Nat) :
    List Json → List Json × List (String × Json) × Nat
  | [] => ([], [], c)
  | v :: rest =>
    let r := extract c v
    let r2 := extractRoots r.2.2 rest
    (r.1 :: r2.1, r.2.1 ++ r2.2.1, r2.2.2)

end

mutual

/-- Some reachable node of the tree (the tree itself included) matches the
Intrinsic Reference predicate.  This is the "leaked reference" test of the
spec's no-leaked-references invariant. -/
def hasIntrinsic : Json → Bool
  | .arr xs => isIntrinsic (.arr xs) || hasIntrinsicL xs
  | .obj kvs => isIntrinsic (.obj kvs) || hasIntrinsicM kvs
  | v => isIntrinsic v

def hasIntrinsicL : List Json → Bool
  | [] => false
  | v :: rest => hasIntrinsic v || hasIntrinsicL rest

def hasIntrinsicM : List (String × Json) → Bool
  | [] => false
  | (_, v) :: rest => hasIntrinsic v || hasIntrinsicM rest

end

mutual

/-- No reachable node sitting in object-value position (the value of some
object member) matches the Intrinsic Reference predicate.  Nodes in array-
element or root position are not constrained, but their descendants are. -/
def objValuesClean : Json → Bool
  | .arr xs => objValuesCleanL xs
  | .obj kvs => objValuesCleanM kvs
  | _ => true

def objValuesCleanL : List Json → Bool
  | [] => true
  | v :: rest => objValuesClean v && objValuesCleanL rest

def objValuesCleanM : List (String × Json) → Bool
  | [] => true
  | (_, v) :: rest => !isIntrinsic v && objValuesClean v && objValuesCleanM rest

end

/-! ### Serialization: `JSON.stringify(value, undefined, 2)` -/

/-- The character for hex digit `n` (lowercase, as in JS hex rendering). -/
def hexChar (n : Nat) : Char :=
  List.getD
    ('0' :: '1' :: '2' :: '3' :: '4' :: '5' :: '6' :: '7' :: '8' :: '9'
      :: 'a' :: 'b' :: 'c' :: 'd' :: 'e' :: 'f' :: []) n '0'

/-- Decimal digits of a natural number, most significant first. -/
def natChars (n : Nat) : List Char :=
  if _h : n < 10 then [hexChar n]
  else natChars (n / 10) ++ [hexChar (n % 10)]
  decreasing_by exact Nat.div_lt_self (by omega) (by omega)

/-- Decimal rendering of an integer (JS `Number` rendering restricted to
integers). -/
def intChars : Int → List Char
  | .ofNat n => natChars n
  | .negSucc m => '-' :: natChars (m + 1)

/-- JSON escaping of one character, as performed by `JSON.stringify` on the
characters of a string: short escapes for `"` `\` and common controls,
`\u00XX` for the remaining control characters, all else verbatim. -/
def escChar (c : Char) : List Char :=
  if c = '"' then ['\\', '"']
  else if c = '\\' then ['\\', '\\']
  else if c = '\n' then ['\\', 'n']
  else if c = '\r' then ['\\', 'r']
  else if c = '\t' then ['\\', 't']
  else if c = '\x08' then ['\\', 'b']
  else if c = '\x0c' then ['\\', 'f']
  else if c.toNat < 32 then
    ['\\', 'u', '0', '0', hexChar (c.toNat / 16), hexChar (c.toNat % 16)]
  else [c]

/-- JSON escaping of a character list. -/
def escapeList : List Char → List Char
  | [] => []
  | c :: rest => escChar c ++ escapeList rest

/-- The 2-space indentation prefix at nesting depth `d`. -/
def indentChars (d : Nat) : List Char :=
  List.replicate (2 * d) ' '

mutual

/-- `JSON.stringify(v, undefined, 2)` (source lines 97 and 101), producing
the character list of the serialized text; `d` is the current nesting
depth. -/
def ser (d : Nat) : Json → List Char
  | .null => 'n' :: 'u' :: 'l' :: 'l' :: []
  | .bool true => 't' :: 'r' :: 'u' :: 'e' :: []
  | .bool false => 'f' :: 'a' :: 'l' :: 's' :: 'e' :: []
  | .num i => intChars i
  | .str s => '"' :: escapeList s.data ++ ['"']
  | .arr [] => ['[', ']']
  | .arr (x :: xs) =>
    '[' :: '\n' :: (serItems (d + 1) x xs ++ '\n' :: indentChars d ++ [']'])
  | .obj [] => ['\x7b', '\x7d']
  | .obj ((k, v) :: kvs) =>
    '\x7b' :: '\n' :: (serMembers (d + 1) k v kvs ++ '\n' :: indentChars d ++ ['\x7d'])
termination_by v => (sizeOf v, 0)
decreasing_by all_goals simp_wf <;> omega

/-- Array items, one per line at depth `d`, separated by `,\n`. -/
def serItems (d : Nat) (x : Json) : List Json → List Char
  | [] => indentChars d ++ ser d x
  | y :: ys => indentChars d ++ ser d x ++ ',' :: '\n' :: serItems d y ys
termination_by ys => (sizeOf x + sizeOf ys, 1)
decreasing_by all_goals simp_wf <;> omega

/-- Object members, one per line at depth `d`, `"key": value`, separated by
`,\n`. -/
def serMembers (d : Nat) (k : String) (v : Json) : List (String × Json) → List Char
  | [] => indentChars d ++ '"' :: (escapeList k.data ++ '"' :: ':' :: ' ' :: ser d v)
  | (k2, v2) :: rest =>
    indentChars d ++ '"' :: (escapeList k.data ++ '"' :: ':' :: ' ' :: ser d v)
      ++ ',' :: '\n' :: serMembers d k2 v2 rest
termination_by rest => (sizeOf v + sizeOf rest, 1)
decreasing_by all_goals simp_wf <;> omega

end

/-- The serialized definition text of a tree (top-level `JSON.stringify`
with 2-space indent). -/
def pretty (v : Json) : String :=
  String.mk (ser 0 v)

/-! ### `${token}` markers in a text -/

/-- State of the left-to-right marker scan: outside any marker, just after an
unconsumed `$`, or inside `${...}` with the token characters read so far
(reversed). -/
inductive ScanState where
  | neutral : ScanState
  | dollar : ScanState
  | inTok (acc : List Char) : ScanState

/-- Left-to-right scan of a text for `${...}` placeholder markers, returning
the marker tokens in order of occurrence.  An unterminated trailing `${...`
yields no marker. -/
def scanMarkers : ScanState → List Char → List String
  | _, [] => []
  | .neutral, c :: rest =>
    if c = '$' then scanMarkers .dollar rest else scanMarkers .neutral rest
  | .dollar, c :: rest =>
    if c = '$' then scanMarkers .dollar rest
    else if c = '\x7b' then scanMarkers (.inTok []) rest
    else scanMarkers .neutral rest
  | .inTok acc, c :: rest =>
    if c = '\x7d' then String.mk acc.reverse :: scanMarkers .neutral rest
    else scanMarkers (.inTok (c :: acc)) rest

/-- The `${token}` markers appearing in a text, in order. -/
def markerList (cs : List Char) : List String :=
  scanMarkers .neutral cs

mutual

/-- The markers contributed by the string leaves of a tree, in traversal
order (keys contribute none; the cleanliness hypotheses below make keys
marker-free). -/
def markerLeaves : Json → List String
  | .str s => markerList s.data
  | .arr xs => markerLeavesL xs
  | .obj kvs => markerLeavesM kvs
  | _ => []

def markerLeavesL : List Json → List String
  | [] => []
  | v :: rest => markerLeaves v ++ markerLeavesL rest

def markerLeavesM : List (String × Json) → List String
  | [] => []
  | (_, v) :: rest => markerLeaves v ++ markerLeavesM rest

end

/-! ### Cleanliness predicates -/

/-- No `$` character occurs. -/
def noDollar (cs : List Char) : Bool :=
  cs.all (fun c => !(c = '$'))

/-- A character that `JSON.stringify` emits verbatim (no escaping). -/
def plainChar (c : Char) : Bool :=
  !(c = '"') && !(c = '\\') && !(c.toNat < 32)

/-- `cs` ends with `}` and contains no other `}`. -/
def markerBody : List Char → Bool
  | [] => false
  | c :: rest => if c = '\x7d' then rest.isEmpty else markerBody rest

/-- `s` is exactly one `${...}` marker. -/
def isMarkerStr (s : String) : Bool :=
  match s.data with
  | '$' :: '\x7b' :: rest => markerBody rest
  | _ => false

/-- A string leaf that the marker-correspondence argument can account for:
either dollar-free, or exactly one marker made of plain characters. -/
def goodLeaf (s : String) : Bool :=
  noDollar s.data || (isMarkerStr s && s.data.all plainChar)

mutual

/-- Post-extraction cleanliness: every string leaf is a `goodLeaf` and every
object key is dollar-free. -/
def goodDoc : Json → Bool
  | .str s => goodLeaf s
  | .arr xs => goodDocL xs
  | .obj kvs => goodDocM kvs
  | _ => true

def goodDocL : List Json → Bool
  | [] => true
  | v :: rest => goodDoc v && goodDocL rest

def goodDocM : List (String × Json) → Bool
  | [] => true
  | (k, v) :: rest => noDollar k.data && goodDoc v && goodDocM rest

end

/-! ### Lodash helpers and the string-definition path -/

/-- JS object property update: assigning an existing key keeps its position
and replaces its value; a new key is appended. -/
def objUpsert {α : Type} (m : List (String × α)) (k : String) (v : α) :
    List (String × α) :=
  if m.any (fun kv => kv.1 == k) then
    m.map (fun kv => if kv.1 == k then (kv.1, v) else kv)
  else m ++ [(k, v)]

/-- `_.fromPairs`: builds a JS object from key/value pairs, later duplicate
keys overwriting earlier ones in place. -/
def fromPairs {α : Type} (l : List (String × α)) : List (String × α) :=
  l.foldl (fun m kv => objUpsert m kv.1 kv.2) []

/-- The global replacement `.replace(/\\n|\\r|\\n\\r/g, '')` (source line 98):
scanning left to right, each two-character `\n` or `\r` escape sequence is
deleted (the third regex alternative is shadowed by the first two). -/
def removeEsc : List Char → List Char
  | [] => []
  | [c] => [c]
  | c1 :: c2 :: rest =>
    if c1 = '\\' && (c2 = 'n' || c2 = 'r') then removeEsc rest
    else c1 :: removeEsc (c2 :: rest)

/-- The input contains a literal backslash immediately followed by `n` or
`r` (the situation under which the escape-stripping of source line 98
corrupts the text). -/
def hasEscPair : List Char → Bool
  | [] => false
  | [_] => false
  | c1 :: c2 :: rest =>
    (c1 = '\\' && (c2 = 'n' || c2 = 'r')) || hasEscPair (c2 :: rest)

/-- The first character (if any) is neither `n` nor `r`: the side condition
under which a preceding escaped backslash survives the replacement of
source line 98 intact. -/
def headNotNR : List Char → Bool
  | [] => true
  | c :: _ => !(c = 'n') && !(c = 'r')

/-- Removal of newline and carriage-return characters from a raw string. -/
def stripNlCr (cs : List Char) : List Char :=
  cs.filter (fun c => !(c = '\n') && !(c = '\r'))

/-- `JSON.stringify` of a top-level string: quoted and escaped. -/
def strStringify (cs : List Char) : List Char :=
  '"' :: escapeList cs ++ ['"']

/-- The `DefinitionString` computed for a string-typed definition (source
lines 96–98): serialize, then strip `\n`/`\r` escape sequences. -/
def strDefinitionString (s : String) : String :=
  String.mk (removeEsc (strStringify s.data))

/-- The deterministic token supply `tokenName` applied to the counter range
`[c, c+n)`. -/
def tokensFrom (c n : Nat) : List String :=
  (List.range' c n).map Json.tokenName

mutual

/-- Pre-extraction cleanliness hypothesis of the amended claim C2: no string
value and no object key of the original definition document contains a `$`
character. -/
def cleanDoc : Json → Bool
  | .str s => noDollar s.data
  | .arr xs => cleanDocL xs
  | .obj kvs => cleanDocM kvs
  | _ => true

def cleanDocL : List Json → Bool
  | [] => true
  | v :: rest => cleanDoc v && cleanDocL rest

def cleanDocM : List (String × Json) → Bool
  | [] => true
  | (k, v) :: rest => noDollar k.data && cleanDoc v && cleanDocM rest

end

/-! ### A JSON parser (Modelled from the spec: `JSON.parse`, the platform
facility the spec's round-trip property reads the text back with) -/

/-- JSON insignificant whitespace. -/
def isWsChar (c : Char) : Bool :=
  c = ' ' || c = '\n' || c = '\t' || c = '\r'

/-- Drop leading whitespace. -/
def skipWs : List Char → List Char
  | [] => []
  | c :: rest => if isWsChar c then skipWs rest else c :: rest

/-- Head test without consuming. -/
def headEq (cs : List Char) (d : Char) : Bool :=
  match cs with
  | [] => false
  | c :: _ => c = d

/-- Tail (empty list for the empty list). -/
def tailOf : List Char → List Char
  | [] => []
  | _ :: t => t

/-- Numeric value of a hex digit character. -/
def hexVal (c : Char) : Nat :=
  if '0' ≤ c ∧ c ≤ '9' then c.toNat - 48
  else if 'a' ≤ c ∧ c ≤ 'f' then c.toNat - 87
  else if 'A' ≤ c ∧ c ≤ 'F' then c.toNat - 55
  else 0

/-- Numeric value of a decimal digit character. -/
def digitVal (c : Char) : Nat :=
  c.toNat - 48

/-- Decimal value of a digit list, most significant first. -/
def digitsVal (cs : List Char) : Nat :=
  cs.foldl (fun a c => a * 10 + digitVal c) 0

/-- Parse a natural number: the maximal leading digit run. -/
def parseNat (cs : List Char) : Option (Nat × List Char) :=
  let ds := cs.takeWhile (fun c => c.isDigit)
  if ds.isEmpty then none
  else some (digitsVal ds, cs.dropWhile (fun c => c.isDigit))

/-- Decoding of a single-character JSON escape. -/
def escDecode (e : Char) : Option Char :=
  if e = '"' then some '"'
  else if e = '\\' then some '\\'
  else if e = '/' then some '/'
  else if e = 'n' then some '\n'
  else if e = 'r' then some '\r'
  else if e = 't' then some '\t'
  else if e = 'b' then some '\x08'
  else if e = 'f' then some '\x0c'
  else none

/-- Parse the body of a JSON string literal (after the opening quote),
returning the decoded characters and the remainder after the closing
quote. -/
def parseStrBody : List Char → Option (List Char × List Char)
  | [] => none
  | c :: rest =>
    if c = '"' then some ([], rest)
    else if c = '\\' then
      match rest with
      | [] => none
      | e :: rest2 =>
        if e = 'u' then
          match rest2 with
          | h1 :: h2 :: h3 :: h4 :: rest3 =>
            (parseStrBody rest3).map (fun p =>
              (Char.ofNat (((hexVal h1 * 16 + hexVal h2) * 16 + hexVal h3) * 16
                  + hexVal h4) :: p.1, p.2))
          | _ => none
        else
          match escDecode e with
          | some c2 => (parseStrBody rest2).map (fun p => (c2 :: p.1, p.2))
          | none => none
    else (parseStrBody rest).map (fun p => (c :: p.1, p.2))

mutual

/-- Parse one JSON value (with a fuel bound on nesting). -/
def parseVal : Nat → List Char → Option (Json × List Char)
  | 0, _ => none
  | fuel + 1, s =>
    match skipWs s with
    | [] => none
    | c :: r =>
      if c = 'n' then
        match r with
        | 'u' :: 'l' :: 'l' :: r2 => some (.null, r2)
        | _ => none
      else if c = 't' then
        match r with
        | 'r' :: 'u' :: 'e' :: r2 => some (.bool true, r2)
        | _ => none
      else if c = 'f' then
        match r with
        | 'a' :: 'l' :: 's' :: 'e' :: r2 => some (.bool false, r2)
        | _ => none
      else if c = '"' then
        (parseStrBody r).map (fun p => (.str (String.mk p.1), p.2))
      else if c = '[' then
        if headEq (skipWs r) ']' then some (.arr [], tailOf (skipWs r))
        else (parseItems fuel r).map (fun p => (.arr p.1, p.2))
      else if c = '\x7b' then
        if headEq (skipWs r) '\x7d' then some (.obj [], tailOf (skipWs r))
        else (parseMembers fuel r).map (fun p => (.obj p.1, p.2))
      else if c = '-' then
        (parseNat r).map (fun p => (.num (-(p.1 : Int)), p.2))
      else if c.isDigit then
        (parseNat (c :: r)).map (fun p => (.num ((p.1 : Int)), p.2))
      else none

/-- Parse a non-empty comma-separated list of values up to `]`. -/
def parseItems : Nat → List Char → Option (List Json × List Char)
  | 0, _ => none
  | fuel + 1, s =>
    match parseVal fuel s with
    | none => none
    | some (v, r) =>
      if headEq (skipWs r) ',' then
        (parseItems fuel (tailOf (skipWs r))).map (fun p => (v :: p.1, p.2))
      else if headEq (skipWs r) ']' then some ([v], tailOf (skipWs r))
      else none

/-- Parse a non-empty comma-separated list of `"key": value` members up to
`}`. -/
def parseMembers : Nat → List Char → Option (List (String × Json) × List Char)
  | 0, _ => none
  | fuel + 1, s =>
    if headEq (skipWs s) '"' then
      match parseStrBody (tailOf (skipWs s)) with
      | none => none
      | some (k, r2) =>
        if headEq (skipWs r2) ':' then
          match parseVal fuel (tailOf (skipWs r2)) with
          | none => none
          | some (v, r4) =>
            if headEq (skipWs r4) ',' then
              (parseMembers fuel (tailOf (skipWs r4))).map
                (fun p => ((String.mk k, v) :: p.1, p.2))
            else if headEq (skipWs r4) '\x7d' then
              some ([(String.mk k, v)], tailOf (skipWs r4))
            else none
        else none
    else none

end

/-- `JSON.parse` of a whole text: one value and nothing but trailing
whitespace. -/
def parseJson (s : String) : Option Json :=
  match parseVal (s.data.length + 1) s.data with
  | some (v, rest) => if (skipWs rest).isEmpty then some v else none
  | none => none

mutual

/-- Fuel needed by `parseVal` on the serialized form of a tree. -/
def jfuel : Json → Nat
  | .arr xs => 1 + jfuelL xs
  | .obj kvs => 1 + jfuelM kvs
  | _ => 1

def jfuelL : List Json → Nat
  | [] => 1
  | v :: rest => 1 + jfuel v + jfuelL rest

def jfuelM : List (String × Json) → Nat
  | [] => 1
  | (_, v) :: rest => 1 + jfuel v + jfuelM rest

end

/-- The remainder after a parsed value must not start with a digit (so that
maximal-munch number parsing stops there). -/
def delimOk : List Char → Bool
  | [] => true
  | c :: _ => !c.isDigit

/-- The head of `b` (if any) fails predicate `p`. -/
def delimB (p : Char → Bool) : List Char → Prop
  | [] => True
  | c :: _ => p c = false

/-! ### The compile pipeline (`compileStateMachines`, source lines 66–193) -/

/-- The compiled `DefinitionString`: either plain serialized text or an
`{'Fn::Sub': [text, params]}` substitution construct (source lines 96–114). -/
inductive DefString where
  | plain (text : String) : DefString
  | sub (text : String) (params : List (String × Json)) : DefString

/-- The serialized text held by a `DefinitionString`. -/
def DefString.textOf : DefString → String
  | .plain t => t
  | .sub t _ => t

/-- The parameter-map keys of a `DefinitionString` (none for plain text). -/
def DefString.paramKeys : DefString → List String
  | .plain _ => []
  | .sub _ ps => ps.map Prod.fst

/-- A normalized `{Key, Value}` tag record (source `toTags`, lines 20–30). -/
structure Tag where
  Key : String
  Value : String
deriving DecidableEq

/-- JS `toString()` coercion of a tag value (primitives rendered the JS way;
array elements joined with commas, plain objects as `[object Object]`). -/
def jsToString : Json → String
  | .null => "null"
  | .bool true => "true"
  | .bool false => "false"
  | .num n => String.mk (intChars n)
  | .str s => s
  | .arr _ => ""
  | .obj _ => "[object Object]"

/-- `toTags` (source lines 20–30): a falsy argument yields `[]`; otherwise
each entry becomes `{Key, Value: Value.toString()}` in insertion order. -/
def toTags (obj : Option (List (String × Json))) : List Tag :=
  match obj with
  | none => []
  | some kvs => kvs.map (fun kv => { Key := kv.1, Value := jsToString kv.2 })

/-- One `stateMachines` entry as consumed by the compiler: the optional
fields read from `stateMachineObj`.  `none` models an absent (undefined)
property; `useExactVersion` is an arbitrary JS value, compared with `===`
against `true`. -/
structure StateMachineObj where
  definition : Option Json
  role : Option Json
  dependsOn : Option Json
  tags : Option (List (String × Json))
  name : Option String
  useExactVersion : Option Json

/-- Compilation errors: the two thrown `this.serverless.classes.Error`s
(each carrying the offending state-machine name) and the JS `TypeError`
raised by reading a property of `undefined`. -/
inductive CompileErr where
  | malformed (name : String) (err : String) : CompileErr
  | invalidDefinition (name : String) (errs : String) : CompileErr
  | typeError : CompileErr

/-- The external collaborators of `compileStateMachines`, passed explicitly.
All are modelled from the spec: `Joi.validate` with
`compileStateMachines.schema`, `asl-validator`,
`translateLocalFunctionNames` and `convertToFunctionVersion` (from
`lib/utils/aws.js`) and the logical-id derivation helpers are not part of
the provided sources; the spec treats them as injected collaborators, so the
embedding quantifies over them. -/
structure Ctx where
  joiError : StateMachineObj → Option String
  validate : Bool
  aslValid : Json → Bool × String
  translate : Json → Json
  convertVersion : Json → Json
  providerTags : Option (List (String × Json))
  getLogicalId : String → String
  getOutputLogicalId : String → String

/-- The optional ASL structural lint (source lines 84–95): runs only when a
definition is present (and truthy) and the `validate` toggle is set; an
invalid result aborts with an error naming the machine. -/
def lintStep (ctx : Ctx) (name : String) (defn : Option Json) :
    Except CompileErr Unit :=
  match defn with
  | some d =>
    if jsTruthy d then
      if ctx.validate then
        match ctx.aslValid d with
        | (true, _) => .ok ()
        | (false, errs) => .error (.invalidDefinition name errs)
      else .ok ()
    else .ok ()
  | none => .ok ()

/-- Assembly of `DefinitionString` (source lines 96–115): a string-typed
definition is serialized and escape-stripped; otherwise intrinsic
references are extracted, the mutated tree serialized, and — when any pair
was yielded — wrapped into an `Fn::Sub` whose parameter map applies the
name-translation collaborator to each extracted reference.  A falsy or
absent definition leaves the variable `undefined` (`none`). -/
def buildDefinitionString (ctx : Ctx) (defn : Option Json) : Option DefString :=
  match defn with
  | some d =>
    if jsTruthy d then
      match d with
      | .str s => some (.plain (strDefinitionString s))
      | j =>
        let r := extract 0 j
        let text := pretty r.1
        if r.2.1.isEmpty then some (.plain text)
        else some (.sub text
          (fromPairs (r.2.1.map (fun kv => (kv.1, ctx.translate kv.2)))))
    else none
  | none => none

/-- The `useExactVersion` post-pass (source lines 118–123): only when the
field is strictly `=== true` is `DefinitionString['Fn::Sub']` consulted —
reading that property of an `undefined` definition string raises a
`TypeError`; on a plain string it is `undefined` (falsy) and nothing
happens; on a substitution construct every parameter value is rewritten by
the version-conversion collaborator. -/
def applyExactVersion (ctx : Ctx) (flag : Option Json) (ds : Option DefString) :
    Except CompileErr (Option DefString) :=
  match flag with
  | some (.bool true) =>
    match ds with
    | none => .error .typeError
    | some (.plain s) => .ok (some (.plain s))
    | some (.sub t ps) =>
      .ok (some (.sub t (ps.map (fun kv => (kv.1, ctx.convertVersion kv.2)))))
  | _ => .ok ds

/-- The conventional shared execution role reference synthesized when no
explicit role is given (source lines 128–133). -/
def defaultRoleArn : Json :=
  .obj [("Fn::GetAtt", .arr [.str "IamRoleStateMachineExecution", .str "Arn"])]

/-- Role and dependency resolution (source lines 125–145): a truthy explicit
role is used verbatim with no role dependency; otherwise the conventional
role reference is used and its logical id pushed first; a truthy
user-supplied `dependsOn` (array or single value) is appended afterwards. -/
def resolveRoleDeps (role : Option Json) (dependsOn : Option Json) :
    Json × List Json :=
  let base : Json × List Json :=
    match role with
    | some r =>
      if jsTruthy r then (r, [])
      else (defaultRoleArn, [.str "IamRoleStateMachineExecution"])
    | none => (defaultRoleArn, [.str "IamRoleStateMachineExecution"])
  match dependsOn with
  | some dep =>
    if jsTruthy dep then
      match dep with
      | .arr xs => (base.1, base.2 ++ xs)
      | d => (base.1, base.2 ++ [d])
    else base
  | none => base

/-- The user-declared dependencies as appended by source lines 137–145: an
array is concatenated, any other truthy value pushed as a single entry, a
falsy or absent `dependsOn` contributes nothing. -/
def userDeps : Option Json → List Json
  | none => []
  | some dep =>
    if jsTruthy dep then
      match dep with
      | .arr xs => xs
      | d => [d]
    else []

/-- Tag resolution (source lines 73 and 147–150): provider-level tags
normalized first, definition-level tags appended after them. -/
def resolveTags (providerTags : Option (List (String × Json)))
    (smTags : Option (List (String × Json))) : List Tag :=
  let base := toTags providerTags
  match smTags with
  | some t => base ++ toTags (some t)
  | none => base

/-- The property bag of the generated state-machine resource. -/
structure SMProps where
  DefinitionString : Option DefString
  RoleArn : Json
  Tags : List Tag
  StateMachineName : Option String

/-- The generated resource record (source lines 156–164); `resourceType`
holds the CloudFormation `Type` field (a Lean keyword). -/
structure SMResource where
  resourceType : String
  Properties : SMProps
  DependsOn : List Json

/-- The companion output record (source lines 178–183). -/
structure SMOutput where
  Description : String
  Value : Json

/-- Compilation of one named state machine (the `forEach` body, source lines
68–192, up to the merge): validation, definition assembly, version
post-pass, role/dependency/tag resolution and record construction. -/
def compileOne (ctx : Ctx) (name : String) (sm : StateMachineObj) :
    Except CompileErr ((String × SMResource) × (String × SMOutput)) :=
  match ctx.joiError sm with
  | some e => .error (.malformed name e)
  | none =>
    match lintStep ctx name sm.definition with
    | .error e => .error e
    | .ok _ =>
      match applyExactVersion ctx sm.useExactVersion
          (buildDefinitionString ctx sm.definition) with
      | .error e => .error e
      | .ok ds =>
        let rd := resolveRoleDeps sm.role sm.dependsOn
        let lid := ctx.getLogicalId name
        let res : SMResource :=
          { resourceType := "AWS::StepFunctions::StateMachine"
            Properties :=
              { DefinitionString := ds
                RoleArn := rd.1
                Tags := resolveTags ctx.providerTags sm.tags
                StateMachineName := sm.name }
            DependsOn := rd.2 }
        let out : SMOutput :=
          { Description := "Current StateMachine Arn"
            Value := .obj [("Ref", .str lid)] }
        .ok ((lid, res), (ctx.getOutputLogicalId name, out))

/-- The cumulative CloudFormation template the records are merged into. -/
structure CFTemplate where
  Resources : List (String × SMResource)
  Outputs : List (String × SMOutput)

/-- The orchestrating loop over all named state machines (source lines
68–193): strictly sequential, each success merged into the shared template,
any thrown error aborting the whole run. -/
def compileAll (ctx : Ctx) :
    List (String × StateMachineObj) → CFTemplate → Except CompileErr CFTemplate
  | [], tpl => .ok tpl
  | (name, sm) :: rest, tpl =>
    match compileOne ctx name sm with
    | .error e => .error e
    | .ok r =>
      compileAll ctx rest
        { Resources := objUpsert tpl.Resources r.1.1 r.1.2
          Outputs := objUpsert tpl.Outputs r.2.1 r.2.2 }

/-! ### Sample collaborator context and documents for concrete instances -/

/-- A concrete collaborator context: schema validation accepts, linting is
off, translation collaborators are the identity, no provider tags. -/
def sampleCtx : Ctx :=
  { joiError := fun _ => none
    validate := false
    aslValid := fun _ => (true, "")
    translate := id
    convertVersion := id
    providerTags := none
    getLogicalId := fun n => n ++ "StateMachine"
    getOutputLogicalId := fun n => n ++ "StateMachineArn" }

/-- A definition document whose only intrinsic reference sits in an
array-element position. -/
def arrayIntrinsicDoc : Json :=
  .obj [("a", .arr [.obj [("Ref", .str "X")]])]

/-- A definition document with no intrinsic references whose string leaf
already looks like a `${...}` marker. -/
def dollarLeafDoc : Json :=
  .obj [("a", .str ("$" ++ "\x7b" ++ "foo" ++ "\x7d"))]

/-- A definition document with one intrinsic reference in object-value
position and dollar-free strings. -/
def oneRefDoc : Json :=
  .obj [("a", .obj [("Ref", .str "X")])]

/-- An intrinsic-free, object-shaped definition document. -/
def docSample5 : Json :=
  .obj [("StartAt", .str "Hello"),
        ("States", .obj [("Hello", .obj [("Type", .str "Pass"),
                                         ("End", .bool true)])])]

/-- A definition-less machine with one string dependency. -/
def smSample6 : StateMachineObj :=
  { definition := none, role := none, dependsOn := some (.str "ExtraDep"),
    tags := none, name := none, useExactVersion := none }

/-- The resource record `compileOne sampleCtx "mySm" smSample6` produces. -/
def resSample6 : SMResource :=
  { resourceType := "AWS::StepFunctions::StateMachine"
    Properties :=
      { DefinitionString := none
        RoleArn := defaultRoleArn
        Tags := []
        StateMachineName := none }
    DependsOn := [.str "IamRoleStateMachineExecution", .str "ExtraDep"] }

/-- The output record produced for the machine named `mySm`. -/
def outSample : SMOutput :=
  { Description := "Current StateMachine Arn"
    Value := .obj [("Ref", .str "mySmStateMachine")] }

/-- `sampleCtx` with one provider-level tag. -/
def ctxSample7 : Ctx :=
  { sampleCtx with providerTags := some [("a", .str "1")] }

/-- A definition-less machine with one definition-level tag. -/
def smSample7 : StateMachineObj :=
  { definition := none, role := none, dependsOn := none,
    tags := some [("b", .str "2")], name := none, useExactVersion := none }

/-- The resource record `compileOne ctxSample7 "mySm" smSample7` produces. -/
def resSample7 : SMResource :=
  { resourceType := "AWS::StepFunctions::StateMachine"
    Properties :=
      { DefinitionString := none
        RoleArn := defaultRoleArn
        Tags := [{ Key := "a", Value := "1" }, { Key := "b", Value := "2" }]
        StateMachineName := none }
    DependsOn := [.str "IamRoleStateMachineExecution"] }

/-- `sampleCtx` with a schema collaborator that rejects every machine. -/
def ctxSample8 : Ctx :=
  { sampleCtx with joiError := fun _ => some "bad shape" }


/-! ### Scanner lemmas -/

theorem scanMarkers_nil (st : ScanState) : scanMarkers st [] = [] := by
  cases st <;> simp [scanMarkers]

theorem noDollar_cons {c : Char} {a : List Char} (h : noDollar (c :: a) = true) :
    ¬c = '$' ∧ noDollar a = true := by
  simpa [noDollar] using h

theorem scanMarkers_neutral_append (a b : List Char) (h : noDollar a = true) :
    scanMarkers .neutral (a ++ b) = scanMarkers .neutral b := by
  induction a with
  | nil => simp
  | cons c a' ih =>
    obtain ⟨hc, ha⟩ := noDollar_cons h
    simp only [List.cons_append, scanMarkers, hc, if_false]
    exact ih ha

theorem scanMarkers_neutral_noDollar (a : List Char) (h : noDollar a = true) :
    scanMarkers .neutral a = [] := by
  have h2 := scanMarkers_neutral_append a [] h
  simpa [scanMarkers_nil] using h2

theorem scanMarkers_inTok (t : List Char) (hnb : ∀ c ∈ t, ¬c = '\x7d') :
    ∀ (acc : List Char) (r : List Char),
      scanMarkers (.inTok acc) (t ++ '\x7d' :: r)
        = String.mk (acc.reverse ++ t) :: scanMarkers .neutral r := by
  induction t with
  | nil => intro acc r; simp [scanMarkers]
  | cons c t' ih =>
    intro acc r
    have hc : ¬c = '\x7d' := hnb c (List.mem_cons_self c t')
    simp only [List.cons_append, scanMarkers, hc, if_false]
    have h2 := ih (fun x hx => hnb x (List.mem_cons_of_mem _ hx)) (c :: acc) r
    simpa [List.append_eq] using h2

/-- Scanning a whole marker `${t}` yields `t` and resumes neutrally. -/
theorem scanMarkers_marker (t : List Char) (hnb : ∀ c ∈ t, ¬c = '\x7d')
    (r : List Char) :
    scanMarkers .neutral ('$' :: '\x7b' :: (t ++ '\x7d' :: r))
      = String.mk t :: scanMarkers .neutral r := by
  have h1 : scanMarkers .neutral ('$' :: '\x7b' :: (t ++ '\x7d' :: r))
      = scanMarkers (.inTok []) (t ++ '\x7d' :: r) := by
    simp [scanMarkers]
  rw [h1, scanMarkers_inTok t hnb [] r]
  simp

theorem markerBody_decomp :
    ∀ cs : List Char, markerBody cs = true →
      ∃ t, cs = t ++ ['\x7d'] ∧ ∀ c ∈ t, ¬c = '\x7d' := by
  intro cs
  induction cs with
  | nil => intro h; simp [markerBody] at h
  | cons c rest ih =>
    intro h
    by_cases hc : c = '\x7d'
    · subst hc
      simp [markerBody] at h
      exact ⟨[], by simp [h], by simp⟩
    · simp only [markerBody, hc, if_false] at h
      obtain ⟨t, ht, hnb⟩ := ih h
      refine ⟨c :: t, by simp [ht], ?_⟩
      intro x hx
      rcases List.mem_cons.mp hx with h1 | h2
      · subst h1; exact hc
      · exact hnb x h2

/-! ### `noDollar` and escaping lemmas -/

theorem hexChar_ne_dollar (n : Nat) : ¬hexChar n = '$' := by
  unfold hexChar
  rcases Nat.lt_or_ge n 16 with h | h
  · interval_cases n <;> decide
  · rw [List.getD_eq_default]
    · decide
    · simpa using h

theorem noDollar_append (a b : List Char) :
    noDollar (a ++ b) = (noDollar a && noDollar b) := by
  simp [noDollar, List.all_append]

theorem noDollar_natChars (n : Nat) : noDollar (natChars n) = true := by
  rw [natChars]
  split
  · simp [noDollar, hexChar_ne_dollar]
  · have ih := noDollar_natChars (n / 10)
    rw [noDollar_append, ih]
    simp [noDollar, hexChar_ne_dollar]
  decreasing_by exact Nat.div_lt_self (by omega) (by omega)

theorem noDollar_intChars (i : Int) : noDollar (intChars i) = true := by
  cases i with
  | ofNat n => simpa [intChars] using noDollar_natChars n
  | negSucc m =>
    simp only [intChars]
    have h := noDollar_natChars (m + 1)
    simp [noDollar] at h ⊢
    exact h

theorem noDollar_escChar (c : Char) (h : ¬c = '$') :
    noDollar (escChar c) = true := by
  unfold escChar
  repeat' split
  all_goals simp_all [noDollar, hexChar_ne_dollar]

theorem noDollar_escapeList (cs : List Char) (h : noDollar cs = true) :
    noDollar (escapeList cs) = true := by
  induction cs with
  | nil => simp [escapeList, noDollar]
  | cons c rest ih =>
    obtain ⟨hc, hrest⟩ := noDollar_cons h
    simp only [escapeList, noDollar_append, Bool.and_eq_true]
    exact ⟨noDollar_escChar c hc, ih hrest⟩

theorem noDollar_indentChars (d : Nat) : noDollar (indentChars d) = true := by
  simp only [indentChars, noDollar, List.all_eq_true]
  intro c hc
  rw [List.mem_replicate] at hc
  simp [hc.2]

theorem escChar_plain (c : Char) (h : plainChar c = true) : escChar c = [c] := by
  simp only [plainChar, Bool.and_eq_true, Bool.not_eq_true', decide_eq_false_iff_not] at h
  obtain ⟨⟨h1, h2⟩, h3⟩ := h
  have e1 : ¬c = '\n' := fun hh => by subst hh; exact h3 (by decide)
  have e2 : ¬c = '\r' := fun hh => by subst hh; exact h3 (by decide)
  have e3 : ¬c = '\t' := fun hh => by subst hh; exact h3 (by decide)
  have e4 : ¬c = '\x08' := fun hh => by subst hh; exact h3 (by decide)
  have e5 : ¬c = '\x0c' := fun hh => by subst hh; exact h3 (by decide)
  simp [escChar, h1, h2, h3, e1, e2, e3, e4, e5]

theorem escapeList_plain (cs : List Char) (h : cs.all plainChar = true) :
    escapeList cs = cs := by
  induction cs with
  | nil => simp [escapeList]
  | cons c rest ih =>
    simp only [List.all_cons, Bool.and_eq_true] at h
    simp [escapeList, escChar_plain c h.1, ih h.2]

theorem isMarkerStr_decomp (s : String) (h : isMarkerStr s = true) :
    ∃ body, s.data = '$' :: '\x7b' :: body ∧ markerBody body = true := by
  unfold isMarkerStr at h
  split at h
  · next body heq => exact ⟨body, heq, h⟩
  · exact absurd h (by simp)

theorem scanMarkers_neutral_cons {c : Char} (r : List Char) (h : ¬c = '$') :
    scanMarkers .neutral (c :: r) = scanMarkers .neutral r := by
  simp [scanMarkers, h]

theorem noDollar_closer (d : Nat) (c : Char) (hc : ¬c = '$') :
    noDollar ('\n' :: indentChars d ++ [c]) = true := by
  simp only [noDollar, List.all_eq_true, Bool.not_eq_true', decide_eq_false_iff_not]
  intro x hx
  simp only [List.cons_append, List.mem_cons, List.mem_append, List.mem_singleton,
    indentChars, List.mem_replicate] at hx
  rcases hx with h | h | h | h
  · subst h; decide
  · rw [h.2]; decide
  · subst h; exact hc
  · simp at h

theorem noDollar_keyChunk (d : Nat) (k : List Char) (hk : noDollar k = true) :
    noDollar (indentChars d ++ '"' :: (escapeList k ++ ['"', ':', ' '])) = true := by
  have hesc := noDollar_escapeList k hk
  simp only [noDollar, List.all_eq_true, Bool.not_eq_true',
    decide_eq_false_iff_not] at hesc ⊢
  intro x hx
  simp only [List.mem_append, List.mem_cons, List.mem_singleton, indentChars,
    List.mem_replicate] at hx
  rcases hx with h | h | h | h | h | h | h
  · rw [h.2]; decide
  · subst h; decide
  · exact hesc x h
  · subst h; decide
  · subst h; decide
  · subst h; decide
  · simp at h

/-- Scanning the serialized form of a `goodLeaf` string literal. -/
theorem scan_strLit (s : String) (rest : List Char) (h : goodLeaf s = true) :
    scanMarkers .neutral ('"' :: (escapeList s.data ++ '"' :: rest))
      = markerList s.data ++ scanMarkers .neutral rest := by
  rcases Bool.or_eq_true _ _ |>.mp h with hA | hB
  · have hesc := noDollar_escapeList s.data hA
    rw [scanMarkers_neutral_cons _ (by decide),
      scanMarkers_neutral_append _ _ hesc,
      scanMarkers_neutral_cons _ (by decide)]
    rw [markerList, scanMarkers_neutral_noDollar s.data hA]
    simp
  · obtain ⟨hms, hpl⟩ := Bool.and_eq_true _ _ |>.mp hB
    obtain ⟨body, hdata, hmb⟩ := isMarkerStr_decomp s hms
    obtain ⟨t, hbody, hnb⟩ := markerBody_decomp body hmb
    rw [escapeList_plain s.data hpl, hdata, hbody,
      scanMarkers_neutral_cons _ (by decide)]
    have e1 : ('$' :: '\x7b' :: (t ++ ['\x7d'])) ++ '"' :: rest
        = '$' :: '\x7b' :: (t ++ '\x7d' :: ('"' :: rest)) := by simp
    rw [e1, scanMarkers_marker t hnb,
      scanMarkers_neutral_cons _ (by decide)]
    have e2 : (t ++ ['\x7d'] : List Char) = t ++ '\x7d' :: ([] : List Char) := by simp
    rw [markerList, e2, scanMarkers_marker t hnb]
    simp [scanMarkers_nil]

mutual

/-- The `${...}` markers of the serialized text of a `goodDoc` tree are
exactly the markers of its string leaves, in traversal order. -/
theorem ser_markers (d : Nat) (v : Json) (rest : List Char)
    (hv : goodDoc v = true) :
    scanMarkers .neutral (ser d v ++ rest)
      = markerLeaves v ++ scanMarkers .neutral rest := by
  match v with
  | .null =>
    rw [show ser d .null ++ rest = ['n', 'u', 'l', 'l'] ++ rest by rw [ser]]
    rw [scanMarkers_neutral_append _ _ (by decide)]
    simp [markerLeaves]
  | .bool true =>
    rw [show ser d (.bool true) ++ rest = ['t', 'r', 'u', 'e'] ++ rest by rw [ser]]
    rw [scanMarkers_neutral_append _ _ (by decide)]
    simp [markerLeaves]
  | .bool false =>
    rw [show ser d (.bool false) ++ rest = ['f', 'a', 'l', 's', 'e'] ++ rest by rw [ser]]
    rw [scanMarkers_neutral_append _ _ (by decide)]
    simp [markerLeaves]
  | .num i =>
    rw [show ser d (.num i) ++ rest = intChars i ++ rest by rw [ser]]
    rw [scanMarkers_neutral_append _ _ (noDollar_intChars i)]
    simp [markerLeaves]
  | .str s =>
    have e : ser d (.str s) ++ rest = '"' :: (escapeList s.data ++ '"' :: rest) := by
      rw [ser]; simp
    rw [e, scan_strLit s rest (by simpa [goodDoc] using hv)]
    simp [markerLeaves]
  | .arr [] =>
    rw [show ser d (.arr []) ++ rest = ['[', ']'] ++ rest by rw [ser]]
    rw [scanMarkers_neutral_append _ _ (by decide)]
    simp [markerLeaves, markerLeavesL]
  | .arr (x :: xs) =>
    have hx : goodDoc x = true ∧ goodDocL xs = true := by
      simpa [goodDoc, goodDocL] using hv
    have e : ser d (.arr (x :: xs)) ++ rest
        = '[' :: '\n' :: (serItems (d + 1) x xs
            ++ (('\n' :: indentChars d ++ [']']) ++ rest)) := by
      rw [ser]; simp
    rw [e, scanMarkers_neutral_cons _ (by decide),
      scanMarkers_neutral_cons _ (by decide),
      serItems_markers (d + 1) x xs _ hx.1 hx.2,
      scanMarkers_neutral_append ('\n' :: indentChars d ++ [']']) rest
        (noDollar_closer d ']' (by decide))]
    simp [markerLeaves, markerLeavesL]
  | .obj [] =>
    rw [show ser d (.obj []) ++ rest = ['\x7b', '\x7d'] ++ rest by rw [ser]]
    rw [scanMarkers_neutral_append _ _ (by decide)]
    simp [markerLeaves, markerLeavesM]
  | .obj ((k, v') :: kvs) =>
    have hx : noDollar k.data = true ∧ goodDoc v' = true ∧ goodDocM kvs = true := by
      simpa [goodDoc, goodDocM, and_assoc] using hv
    have e : ser d (.obj ((k, v') :: kvs)) ++ rest
        = '\x7b' :: '\n' :: (serMembers (d + 1) k v' kvs
            ++ (('\n' :: indentChars d ++ ['\x7d']) ++ rest)) := by
      rw [ser]; simp
    rw [e, scanMarkers_neutral_cons _ (by decide),
      scanMarkers_neutral_cons _ (by decide),
      serMembers_markers (d + 1) k v' kvs _ hx.1 hx.2.1 hx.2.2,
      scanMarkers_neutral_append ('\n' :: indentChars d ++ ['\x7d']) rest
        (noDollar_closer d '\x7d' (by decide))]
    simp [markerLeaves, markerLeavesM]
termination_by (sizeOf v, 0)
decreasing_by all_goals simp_wf <;> omega

theorem serItems_markers (d : Nat) (x : Json) (xs : List Json)
    (rest : List Char) (hx : goodDoc x = true) (hxs : goodDocL xs = true) :
    scanMarkers .neutral (serItems d x xs ++ rest)
      = markerLeaves x ++ (markerLeavesL xs ++ scanMarkers .neutral rest) := by
  match xs with
  | [] =>
    have e : serItems d x [] ++ rest = indentChars d ++ (ser d x ++ rest) := by
      rw [serItems]; simp
    rw [e, scanMarkers_neutral_append _ _ (noDollar_indentChars d),
      ser_markers d x rest hx]
    simp [markerLeavesL]
  | y :: ys =>
    have hy : goodDoc y = true ∧ goodDocL ys = true := by
      simpa [goodDocL] using hxs
    have e : serItems d x (y :: ys) ++ rest
        = indentChars d ++ (ser d x ++ (',' :: '\n' :: (serItems d y ys ++ rest))) := by
      rw [serItems]; simp
    rw [e, scanMarkers_neutral_append _ _ (noDollar_indentChars d),
      ser_markers d x _ hx,
      scanMarkers_neutral_cons _ (by decide),
      scanMarkers_neutral_cons _ (by decide),
      serItems_markers d y ys rest hy.1 hy.2]
    simp [markerLeavesL]
termination_by (sizeOf x + sizeOf xs, 1)
decreasing_by all_goals simp_wf <;> omega

theorem serMembers_markers (d : Nat) (k : String) (v : Json)
    (kvs : List (String × Json)) (rest : List Char)
    (hk : noDollar k.data = true) (hv : goodDoc v = true)
    (hkvs : goodDocM kvs = true) :
    scanMarkers .neutral (serMembers d k v kvs ++ rest)
      = markerLeaves v ++ (markerLeavesM kvs ++ scanMarkers .neutral rest) := by
  match kvs with
  | [] =>
    have e : serMembers d k v [] ++ rest
        = (indentChars d ++ '"' :: (escapeList k.data ++ ['"', ':', ' ']))
            ++ (ser d v ++ rest) := by
      rw [serMembers]; simp
    rw [e, scanMarkers_neutral_append _ _ (noDollar_keyChunk d k.data hk),
      ser_markers d v rest hv]
    simp [markerLeavesM]
  | (k2, v2) :: kvs' =>
    have h2 : noDollar k2.data = true ∧ goodDoc v2 = true ∧ goodDocM kvs' = true := by
      simpa [goodDocM, and_assoc] using hkvs
    have e : serMembers d k v ((k2, v2) :: kvs') ++ rest
        = (indentChars d ++ '"' :: (escapeList k.data ++ ['"', ':', ' ']))
            ++ (ser d v ++ (',' :: '\n' :: (serMembers d k2 v2 kvs' ++ rest))) := by
      rw [serMembers]; simp
    rw [e, scanMarkers_neutral_append _ _ (noDollar_keyChunk d k.data hk),
      ser_markers d v _ hv,
      scanMarkers_neutral_cons _ (by decide),
      scanMarkers_neutral_cons _ (by decide),
      serMembers_markers d k2 v2 kvs' rest h2.1 h2.2.1 h2.2.2]
    simp [markerLeavesM]
termination_by (sizeOf v + sizeOf kvs, 1)
decreasing_by all_goals simp_wf <;> omega

end

end SSM

namespace SSM
open Json

/-! ### The marker string replacing an intrinsic node is a good leaf -/

theorem marker_data (t : String) :
    (marker t).data = '$' :: '\x7b' :: (t.data ++ ['\x7d']) := by
  simp [marker, String.data_append]

theorem markerBody_append (t : List Char) (hnb : ∀ c ∈ t, ¬c = '\x7d') :
    markerBody (t ++ ['\x7d']) = true := by
  induction t with
  | nil => simp [markerBody]
  | cons c t' ih =>
    have hc : ¬c = '\x7d' := hnb c (List.mem_cons_self c t')
    simp only [List.cons_append, markerBody, hc, if_false]
    exact ih (fun x hx => hnb x (List.mem_cons_of_mem _ hx))

theorem tokenName_data (n : Nat) :
    (tokenName n).data = 'v' :: List.replicate n 'x' := rfl

theorem tokenName_no_brace (n : Nat) :
    ∀ c ∈ (tokenName n).data, ¬c = '\x7d' := by
  intro c hc
  rw [tokenName_data] at hc
  rcases List.mem_cons.mp hc with h | h
  · subst h; decide
  · rw [(List.mem_replicate.mp h).2]; decide

theorem goodLeaf_marker (n : Nat) : goodLeaf (marker (tokenName n)) = true := by
  have hms : isMarkerStr (marker (tokenName n)) = true := by
    unfold isMarkerStr
    rw [marker_data]
    exact markerBody_append _ (tokenName_no_brace n)
  have hpl : (marker (tokenName n)).data.all plainChar = true := by
    rw [marker_data, tokenName_data]
    simp only [List.all_eq_true]
    intro c hc
    rcases List.mem_cons.mp hc with h | hc2
    · subst h; decide
    rcases List.mem_cons.mp hc2 with h | hc3
    · subst h; decide
    rcases List.mem_append.mp hc3 with h | h
    · rcases List.mem_cons.mp h with h1 | h1
      · subst h1; decide
      · rw [(List.mem_replicate.mp h1).2]; decide
    · rw [List.mem_singleton.mp h]; decide
  simp [goodLeaf, hms, hpl]

theorem markerList_marker (n : Nat) :
    markerList (marker (tokenName n)).data = [tokenName n] := by
  rw [markerList, marker_data]
  have e : ((tokenName n).data ++ ['\x7d'] : List Char)
      = (tokenName n).data ++ '\x7d' :: ([] : List Char) := by simp
  rw [e, scanMarkers_marker _ (tokenName_no_brace n)]
  simp [scanMarkers_nil]

/-! ### Extraction produces good trees whose markers are its tokens -/

theorem markerList_noDollar {s : String} (h : noDollar s.data = true) :
    markerList s.data = [] :=
  scanMarkers_neutral_noDollar s.data h

mutual

/-- Extraction of a dollar-free document yields a good tree whose marker
leaves are, in order, exactly the yielded parameter names. -/
theorem extract_good (c : Nat) (v : Json) (hv : cleanDoc v = true) :
    goodDoc (extract c v).1 = true ∧
      markerLeaves (extract c v).1 = (extract c v).2.1.map Prod.fst := by
  match v with
  | .obj kvs =>
    have h := extractMembers_good c kvs (by simpa [cleanDoc] using hv)
    simpa [extract, goodDoc, markerLeaves] using h
  | .arr xs =>
    have h := extractEntries_good c xs (by simpa [cleanDoc] using hv)
    simpa [extract, goodDoc, markerLeaves] using h
  | .str s =>
    have hnd : noDollar s.data = true := by simpa [cleanDoc] using hv
    refine ⟨?_, ?_⟩
    · simp [extract, goodDoc, goodLeaf, hnd]
    · simp only [extract, markerLeaves]
      rw [markerList_noDollar hnd]
      simp
  | .null => simp [extract, goodDoc, markerLeaves]
  | .bool b => simp [extract, goodDoc, markerLeaves]
  | .num n => simp [extract, goodDoc, markerLeaves]

theorem extractVal_good (c : Nat) (v : Json) (hv : cleanDoc v = true) :
    goodDoc (extractVal c v).1 = true ∧
      markerLeaves (extractVal c v).1 = (extractVal c v).2.1.map Prod.fst := by
  match v with
  | .arr xs =>
    have h := extractRoots_good c xs (by simpa [cleanDoc] using hv)
    simpa [extractVal, goodDoc, markerLeaves] using h
  | .obj kvs =>
    by_cases hint : isIntrinsic (.obj kvs) = true
    · refine ⟨?_, ?_⟩
      · simp only [extractVal, hint, if_true, goodDoc]
        exact goodLeaf_marker c
      · simp only [extractVal, hint, if_true, markerLeaves]
        rw [markerList_marker c]
        simp
    · simp only [Bool.not_eq_true] at hint
      simp only [extractVal, hint, Bool.false_eq_true, if_false]
      exact extract_good c (.obj kvs) hv
  | .str s =>
    have hnd : noDollar s.data = true := by simpa [cleanDoc] using hv
    refine ⟨?_, ?_⟩
    · simp [extractVal, isIntrinsic, goodDoc, goodLeaf, hnd]
    · simp only [extractVal, isIntrinsic, Bool.false_eq_true, if_false, markerLeaves]
      rw [markerList_noDollar hnd]
      simp
  | .null => simp [extractVal, isIntrinsic, goodDoc, markerLeaves]
  | .bool b => simp [extractVal, isIntrinsic, goodDoc, markerLeaves]
  | .num n => simp [extractVal, isIntrinsic, goodDoc, markerLeaves]

theorem extractMembers_good (c : Nat) (kvs : List (String × Json))
    (hkvs : cleanDocM kvs = true) :
    goodDocM (extractMembers c kvs).1 = true ∧
      markerLeavesM (extractMembers c kvs).1
        = (extractMembers c kvs).2.1.map Prod.fst := by
  match kvs with
  | [] => simp [extractMembers, goodDocM, markerLeavesM]
  | (k, v) :: rest =>
    have hc : noDollar k.data = true ∧ cleanDoc v = true ∧ cleanDocM rest = true := by
      simpa [cleanDocM, and_assoc] using hkvs
    have h1 := extractVal_good c v hc.2.1
    have h2 := extractMembers_good (extractVal c v).2.2 rest hc.2.2
    refine ⟨?_, ?_⟩
    · simp [extractMembers, goodDocM, hc.1, h1.1, h2.1]
    · simp [extractMembers, markerLeavesM, h1.2, h2.2]

theorem extractEntries_good (c : Nat) (xs : List Json)
    (hxs : cleanDocL xs = true) :
    goodDocL (extractEntries c xs).1 = true ∧
      markerLeavesL (extractEntries c xs).1
        = (extractEntries c xs).2.1.map Prod.fst := by
  match xs with
  | [] => simp [extractEntries, goodDocL, markerLeavesL]
  | v :: rest =>
    have hc : cleanDoc v = true ∧ cleanDocL rest = true := by
      simpa [cleanDocL] using hxs
    have h1 := extractVal_good c v hc.1
    have h2 := extractEntries_good (extractVal c v).2.2 rest hc.2
    refine ⟨?_, ?_⟩
    · simp [extractEntries, goodDocL, h1.1, h2.1]
    · simp [extractEntries, markerLeavesL, h1.2, h2.2]

theorem extractRoots_good (c : Nat) (xs : List Json)
    (hxs : cleanDocL xs = true) :
    goodDocL (extractRoots c xs).1 = true ∧
      markerLeavesL (extractRoots c xs).1
        = (extractRoots c xs).2.1.map Prod.fst := by
  match xs with
  | [] => simp [extractRoots, goodDocL, markerLeavesL]
  | v :: rest =>
    have hc : cleanDoc v = true ∧ cleanDocL rest = true := by
      simpa [cleanDocL] using hxs
    have h1 := extract_good c v hc.1
    have h2 := extractRoots_good (extract c v).2.2 rest hc.2
    refine ⟨?_, ?_⟩
    · simp [extractRoots, goodDocL, h1.1, h2.1]
    · simp [extractRoots, markerLeavesL, h1.2, h2.2]

end

/-! ### Token accounting: extraction yields the counter range, hence
no duplicate parameter names -/

theorem tokensFrom_zero (c : Nat) : tokensFrom c 0 = [] := by
  simp [tokensFrom]

theorem tokensFrom_one (c : Nat) : tokensFrom c 1 = [tokenName c] := by
  simp [tokensFrom, List.range']

theorem tokensFrom_append (n1 : Nat) :
    ∀ (c n2 : Nat), tokensFrom c n1 ++ tokensFrom (c + n1) n2 = tokensFrom c (n1 + n2) := by
  induction n1 with
  | zero => intro c n2; simp [tokensFrom_zero]
  | succ m ih =>
    intro c n2
    have e1 : tokensFrom c (m + 1) = tokenName c :: tokensFrom (c + 1) m := by
      simp [tokensFrom, List.range'_succ]
    have e2 : tokensFrom c (m + 1 + n2) = tokenName c :: tokensFrom (c + 1) (m + n2) := by
      have : m + 1 + n2 = (m + n2) + 1 := by omega
      rw [this]
      simp [tokensFrom, List.range'_succ]
    rw [e1, e2, List.cons_append]
    have : c + (m + 1) = (c + 1) + m := by omega
    rw [this, ih (c + 1) n2]

theorem tokenName_inj {a b : Nat} (h : tokenName a = tokenName b) : a = b := by
  have h2 : 'v' :: List.replicate a 'x' = 'v' :: List.replicate b 'x' := by
    have := congrArg String.data h
    rwa [tokenName_data, tokenName_data] at this
  have h3 := congrArg List.length h2
  simpa using h3

theorem tokensFrom_nodup (c n : Nat) : (tokensFrom c n).Nodup := by
  apply List.Nodup.map
  · intro a b hab
    exact tokenName_inj hab
  · exact List.nodup_range' c n

mutual

/-- Extraction yields fresh tokens in counter order: the final counter is
the initial one plus the number of pairs, and the pair names are exactly
`tokenName` of the consecutive counter values. -/
theorem extract_tokens (c : Nat) (v : Json) :
    (extract c v).2.2 = c + (extract c v).2.1.length ∧
      (extract c v).2.1.map Prod.fst = tokensFrom c (extract c v).2.1.length := by
  match v with
  | .obj kvs => simpa [extract] using extractMembers_tokens c kvs
  | .arr xs => simpa [extract] using extractEntries_tokens c xs
  | .null => simp [extract, tokensFrom_zero]
  | .bool b => simp [extract, tokensFrom_zero]
  | .num n => simp [extract, tokensFrom_zero]
  | .str s => simp [extract, tokensFrom_zero]

theorem extractVal_tokens (c : Nat) (v : Json) :
    (extractVal c v).2.2 = c + (extractVal c v).2.1.length ∧
      (extractVal c v).2.1.map Prod.fst = tokensFrom c (extractVal c v).2.1.length := by
  match v with
  | .arr xs => simpa [extractVal] using extractRoots_tokens c xs
  | .obj kvs =>
    by_cases hint : isIntrinsic (.obj kvs) = true
    · simp [extractVal, hint, tokensFrom_one]
    · simp only [Bool.not_eq_true] at hint
      simp only [extractVal, hint, Bool.false_eq_true, if_false]
      exact extract_tokens c (.obj kvs)
  | .null => simp [extractVal, isIntrinsic, tokensFrom_zero]
  | .bool b => simp [extractVal, isIntrinsic, tokensFrom_zero]
  | .num n => simp [extractVal, isIntrinsic, tokensFrom_zero]
  | .str s => simp [extractVal, isIntrinsic, tokensFrom_zero]

theorem extractMembers_tokens (c : Nat) (kvs : List (String × Json)) :
    (extractMembers c kvs).2.2 = c + (extractMembers c kvs).2.1.length ∧
      (extractMembers c kvs).2.1.map Prod.fst
        = tokensFrom c (extractMembers c kvs).2.1.length := by
  match kvs with
  | [] => simp [extractMembers, tokensFrom_zero]
  | (k, v) :: rest =>
    have h1 := extractVal_tokens c v
    have h2 := extractMembers_tokens (extractVal c v).2.2 rest
    refine ⟨?_, ?_⟩
    · simp only [extractMembers, List.length_append]
      omega
    · simp only [extractMembers, List.map_append, List.length_append, h1.2]
      rw [show (extractMembers (extractVal c v).2.2 rest).2.1.map Prod.fst
          = tokensFrom (c + (extractVal c v).2.1.length)
              (extractMembers (extractVal c v).2.2 rest).2.1.length by
        rw [h2.2, h1.1]]
      exact tokensFrom_append _ _ _

theorem extractEntries_tokens (c : Nat) (xs : List Json) :
    (extractEntries c xs).2.2 = c + (extractEntries c xs).2.1.length ∧
      (extractEntries c xs).2.1.map Prod.fst
        = tokensFrom c (extractEntries c xs).2.1.length := by
  match xs with
  | [] => simp [extractEntries, tokensFrom_zero]
  | v :: rest =>
    have h1 := extractVal_tokens c v
    have h2 := extractEntries_tokens (extractVal c v).2.2 rest
    refine ⟨?_, ?_⟩
    · simp only [extractEntries, List.length_append]
      omega
    · simp only [extractEntries, List.map_append, List.length_append, h1.2]
      rw [show (extractEntries (extractVal c v).2.2 rest).2.1.map Prod.fst
          = tokensFrom (c + (extractVal c v).2.1.length)
              (extractEntries (extractVal c v).2.2 rest).2.1.length by
        rw [h2.2, h1.1]]
      exact tokensFrom_append _ _ _

theorem extractRoots_tokens (c : Nat) (xs : List Json) :
    (extractRoots c xs).2.2 = c + (extractRoots c xs).2.1.length ∧
      (extractRoots c xs).2.1.map Prod.fst
        = tokensFrom c (extractRoots c xs).2.1.length := by
  match xs with
  | [] => simp [extractRoots, tokensFrom_zero]
  | v :: rest =>
    have h1 := extract_tokens c v
    have h2 := extractRoots_tokens (extract c v).2.2 rest
    refine ⟨?_, ?_⟩
    · simp only [extractRoots, List.length_append]
      omega
    · simp only [extractRoots, List.map_append, List.length_append, h1.2]
      rw [show (extractRoots (extract c v).2.2 rest).2.1.map Prod.fst
          = tokensFrom (c + (extract c v).2.1.length)
              (extractRoots (extract c v).2.2 rest).2.1.length by
        rw [h2.2, h1.1]]
      exact tokensFrom_append _ _ _

end

/-- The extracted parameter names of one pass are pairwise distinct. -/
theorem extract_names_nodup (c : Nat) (v : Json) :
    ((extract c v).2.1.map Prod.fst).Nodup := by
  rw [(extract_tokens c v).2]
  exact tokensFrom_nodup _ _

/-! ### `fromPairs` on duplicate-free keys -/

theorem foldl_objUpsert {α : Type} (l : List (String × α)) :
    ∀ acc : List (String × α),
      (acc.map Prod.fst ++ l.map Prod.fst).Nodup →
      l.foldl (fun m kv => objUpsert m kv.1 kv.2) acc = acc ++ l := by
  induction l with
  | nil => intro acc _; simp
  | cons kv rest ih =>
    intro acc h
    obtain ⟨k, v⟩ := kv
    have hk : ¬k ∈ acc.map Prod.fst := by
      intro hmem
      have hdisj := (List.nodup_append.mp h).2.2
      exact hdisj hmem (by simp)
    have hup : objUpsert acc k v = acc ++ [(k, v)] := by
      rw [objUpsert, if_neg]
      intro hany
      obtain ⟨kv', hmem, heq⟩ := List.any_eq_true.mp hany
      exact hk (List.mem_map.mpr ⟨kv', hmem, by simpa using heq⟩)
    rw [List.foldl_cons, hup, ih (acc ++ [(k, v)]) ?_]
    · simp
    · simp only [List.map_append, List.map_cons, List.map_nil] at h ⊢
      simpa [List.append_assoc] using h

theorem fromPairs_self {α : Type} (l : List (String × α))
    (h : (l.map Prod.fst).Nodup) : fromPairs l = l := by
  have h2 := foldl_objUpsert l [] (by simpa using h)
  simpa [fromPairs] using h2

/-- `extractMembers` preserves member keys: only values are rewritten. -/
theorem extractMembers_keys (kvs : List (String × Json)) :
    ∀ c : Nat, (extractMembers c kvs).1.map Prod.fst = kvs.map Prod.fst := by
  induction kvs with
  | nil => intro c; simp [extractMembers]
  | cons kv rest ih =>
    intro c
    obtain ⟨k, v⟩ := kv
    simp [extractMembers, ih]

/-- `isIntrinsic` only looks at the key list of an object. -/
theorem isIntrinsic_of_keys_eq {kvs kvs' : List (String × Json)}
    (h : kvs.map Prod.fst = kvs'.map Prod.fst) :
    isIntrinsic (.obj kvs) = isIntrinsic (.obj kvs') := by
  match kvs, kvs' with
  | [], [] => rfl
  | [(k, v)], [(k', v')] =>
    simp only [List.map_cons, List.map_nil, List.cons.injEq, and_true] at h
    simp [isIntrinsic, h]
  | (k1, v1) :: (k2, v2) :: rest, (k1', v1') :: (k2', v2') :: rest' =>
    simp [isIntrinsic]
  | [], _ :: _ => simp at h
  | _ :: _, [] => simp at h
  | [_], _ :: _ :: _ => simp at h
  | _ :: _ :: _, [_] => simp at h

mutual

/-- After extraction, every reachable object-value position is free of
intrinsic nodes (body of claim C1's amended invariant). -/
theorem extract_clean (c : Nat) (v : Json) :
    objValuesClean (extract c v).1 = true := by
  match v with
  | .obj kvs =>
    simp only [extract, objValuesClean]
    exact extractMembers_clean c kvs
  | .arr xs =>
    simp only [extract, objValuesClean]
    exact extractEntries_clean c xs
  | .null => simp [extract, objValuesClean]
  | .bool b => simp [extract, objValuesClean]
  | .num n => simp [extract, objValuesClean]
  | .str s => simp [extract, objValuesClean]

/-- The per-value branch yields a value that is clean and never itself an
intrinsic node. -/
theorem extractVal_clean (c : Nat) (v : Json) :
    objValuesClean (extractVal c v).1 = true ∧
      isIntrinsic (extractVal c v).1 = false := by
  match v with
  | .arr xs =>
    refine ⟨?_, ?_⟩
    · simp only [extractVal, objValuesClean]
      exact extractRoots_clean c xs
    · simp [extractVal, isIntrinsic]
  | .obj kvs =>
    by_cases hint : isIntrinsic (.obj kvs) = true
    · refine ⟨?_, ?_⟩
      · simp [extractVal, hint, objValuesClean]
      · simp only [extractVal, hint, if_true]
        simp [isIntrinsic]
    · simp only [Bool.not_eq_true] at hint
      refine ⟨?_, ?_⟩
      · simp only [extractVal, hint, Bool.false_eq_true, if_false]
        exact extract_clean c (.obj kvs)
      · simp only [extractVal, hint, Bool.false_eq_true, if_false, extract]
        rw [isIntrinsic_of_keys_eq (extractMembers_keys kvs c)]
        exact hint
  | .null => simp [extractVal, isIntrinsic, objValuesClean]
  | .bool b => simp [extractVal, isIntrinsic, objValuesClean]
  | .num n => simp [extractVal, isIntrinsic, objValuesClean]
  | .str s => simp [extractVal, isIntrinsic, objValuesClean]

theorem extractMembers_clean (c : Nat) (kvs : List (String × Json)) :
    objValuesCleanM (extractMembers c kvs).1 = true := by
  match kvs with
  | [] => simp [extractMembers, objValuesCleanM]
  | (k, v) :: rest =>
    have h1 := extractVal_clean c v
    have h2 := extractMembers_clean (extractVal c v).2.2 rest
    simp [extractMembers, objValuesCleanM, h1.1, h1.2, h2]

theorem extractEntries_clean (c : Nat) (xs : List Json) :
    objValuesCleanL (extractEntries c xs).1 = true := by
  match xs with
  | [] => simp [extractEntries, objValuesCleanL]
  | v :: rest =>
    have h1 := extractVal_clean c v
    have h2 := extractEntries_clean (extractVal c v).2.2 rest
    simp [extractEntries, objValuesCleanL, h1.1, h2]

theorem extractRoots_clean (c : Nat) (xs : List Json) :
    objValuesCleanL (extractRoots c xs).1 = true := by
  match xs with
  | [] => simp [extractRoots, objValuesCleanL]
  | v :: rest =>
    have h1 := extract_clean c v
    have h2 := extractRoots_clean (extract c v).2.2 rest
    simp [extractRoots, objValuesCleanL, h1, h2]

end

/-! ### The escape-stripping replacement on serialized strings (claim C3) -/

theorem hexChar_ne_bs (n : Nat) : ¬hexChar n = '\\' := by
  unfold hexChar
  rcases Nat.lt_or_ge n 16 with h | h
  · interval_cases n <;> decide
  · rw [List.getD_eq_default]
    · decide
    · simpa using h

theorem removeEsc_cons_plain (c : Char) (X : List Char) (h : ¬c = '\\') :
    removeEsc (c :: X) = c :: removeEsc X := by
  match X with
  | [] => simp [removeEsc]
  | c2 :: rest => simp [removeEsc, h]

theorem removeEsc_bs_pair (c2 : Char) (X : List Char)
    (hn : ¬c2 = 'n') (hr : ¬c2 = 'r') (hb : ¬c2 = '\\') :
    removeEsc ('\\' :: c2 :: X) = '\\' :: c2 :: removeEsc X := by
  rw [show removeEsc ('\\' :: c2 :: X) = '\\' :: removeEsc (c2 :: X) by
    simp [removeEsc, hn, hr]]
  rw [removeEsc_cons_plain c2 X hb]

theorem removeEsc_bs_head (tail : List Char) (h : headNotNR tail = true) :
    removeEsc ('\\' :: tail) = '\\' :: removeEsc tail := by
  match tail with
  | [] => simp [removeEsc]
  | t1 :: t2 =>
    have hh : ¬t1 = 'n' ∧ ¬t1 = 'r' := by simpa [headNotNR] using h
    simp [removeEsc, hh.1, hh.2]

theorem hasEscPair_tail {c : Char} {rest : List Char}
    (h : hasEscPair (c :: rest) = false) : hasEscPair rest = false := by
  match rest with
  | [] => rfl
  | r1 :: r2 =>
    rw [show hasEscPair (c :: r1 :: r2)
        = ((c = '\\' && (r1 = 'n' || r1 = 'r')) || hasEscPair (r1 :: r2))
      from rfl] at h
    exact (Bool.or_eq_false_iff.mp h).2

theorem hasEscPair_head_bs {rest : List Char}
    (h : hasEscPair ('\\' :: rest) = false) : headNotNR rest = true := by
  match rest with
  | [] => rfl
  | r1 :: r2 =>
    rw [show hasEscPair ('\\' :: r1 :: r2)
        = (('\\' = '\\' && (r1 = 'n' || r1 = 'r')) || hasEscPair (r1 :: r2))
      from rfl] at h
    have h1 := (Bool.or_eq_false_iff.mp h).1
    simp only [decide_True, Bool.true_and] at h1
    have h2 := Bool.or_eq_false_iff.mp h1
    simp only [headNotNR, Bool.and_eq_true, Bool.not_eq_true',
      decide_eq_false_iff_not]
    constructor
    · simpa using h2.1
    · simpa using h2.2

theorem stripNlCr_keep {c : Char} (rest : List Char)
    (h1 : ¬c = '\n') (h2 : ¬c = '\r') :
    stripNlCr (c :: rest) = c :: stripNlCr rest := by
  simp [stripNlCr, h1, h2]

theorem stripNlCr_drop_n (rest : List Char) :
    stripNlCr ('\n' :: rest) = stripNlCr rest := by
  simp [stripNlCr]

theorem stripNlCr_drop_r (rest : List Char) :
    stripNlCr ('\r' :: rest) = stripNlCr rest := by
  simp [stripNlCr]

/-- The escape-stripping replacement commutes with serialization when the
raw input has no literal backslash-`n`/backslash-`r` pair: it removes
exactly the serialized newline/carriage-return characters.  The second
conjunct tracks a pending serialized backslash. -/
theorem removeEsc_escapeList (cs : List Char) (h : hasEscPair cs = false) :
    ∀ tail : List Char, headNotNR tail = true →
      removeEsc (escapeList cs ++ tail)
          = escapeList (stripNlCr cs) ++ removeEsc tail ∧
        (headNotNR cs = true →
          removeEsc ('\\' :: (escapeList cs ++ tail))
            = '\\' :: (escapeList (stripNlCr cs) ++ removeEsc tail)) := by
  induction cs with
  | nil =>
    intro tail htail
    refine ⟨by simp [escapeList, stripNlCr], ?_⟩
    intro _
    simp only [escapeList, List.nil_append, stripNlCr, List.filter_nil]
    rw [removeEsc_bs_head tail htail]
  | cons c rest ih =>
    intro tail htail
    have hrest := hasEscPair_tail h
    have IH := ih hrest tail htail
    by_cases h1 : c = '"'
    · subst h1
      rw [show escapeList ('"' :: rest) = '\\' :: '"' :: escapeList rest from rfl,
        stripNlCr_keep rest (by decide) (by decide),
        show escapeList ('"' :: stripNlCr rest)
          = '\\' :: '"' :: escapeList (stripNlCr rest) from rfl]
      constructor
      · rw [List.cons_append, List.cons_append,
          removeEsc_bs_pair _ _ (by decide) (by decide) (by decide), IH.1]
        simp
      · intro _
        rw [List.cons_append, List.cons_append]
        rw [show removeEsc ('\\' :: '\\' :: '"' :: (escapeList rest ++ tail))
            = '\\' :: removeEsc ('\\' :: '"' :: (escapeList rest ++ tail)) by
          simp [removeEsc]]
        rw [removeEsc_bs_pair _ _ (by decide) (by decide) (by decide), IH.1]
        simp
    · by_cases h2 : c = '\\'
      · subst h2
        have hheadrest := hasEscPair_head_bs h
        rw [show escapeList ('\\' :: rest) = '\\' :: '\\' :: escapeList rest from rfl,
          stripNlCr_keep rest (by decide) (by decide),
          show escapeList ('\\' :: stripNlCr rest)
            = '\\' :: '\\' :: escapeList (stripNlCr rest) from rfl]
        constructor
        · rw [List.cons_append, List.cons_append]
          rw [show removeEsc ('\\' :: '\\' :: (escapeList rest ++ tail))
              = '\\' :: removeEsc ('\\' :: (escapeList rest ++ tail)) by
            simp [removeEsc]]
          rw [IH.2 hheadrest]
          simp
        · intro _
          rw [List.cons_append, List.cons_append]
          rw [show removeEsc ('\\' :: '\\' :: '\\' :: (escapeList rest ++ tail))
              = '\\' :: removeEsc ('\\' :: '\\' :: (escapeList rest ++ tail)) by
            simp [removeEsc]]
          rw [show removeEsc ('\\' :: '\\' :: (escapeList rest ++ tail))
              = '\\' :: removeEsc ('\\' :: (escapeList rest ++ tail)) by
            simp [removeEsc]]
          rw [IH.2 hheadrest]
          simp
      · by_cases h3 : c = '\n'
        · subst h3
          rw [show escapeList ('\n' :: rest) = '\\' :: 'n' :: escapeList rest from rfl,
            stripNlCr_drop_n rest]
          constructor
          · rw [List.cons_append, List.cons_append,
              show removeEsc ('\\' :: 'n' :: (escapeList rest ++ tail))
                = removeEsc (escapeList rest ++ tail) by simp [removeEsc]]
            exact IH.1
          · intro _
            rw [List.cons_append, List.cons_append]
            rw [show removeEsc ('\\' :: '\\' :: 'n' :: (escapeList rest ++ tail))
                = '\\' :: removeEsc ('\\' :: 'n' :: (escapeList rest ++ tail)) by
              simp [removeEsc]]
            rw [show removeEsc ('\\' :: 'n' :: (escapeList rest ++ tail))
                = removeEsc (escapeList rest ++ tail) by simp [removeEsc]]
            rw [IH.1]
        · by_cases h4 : c = '\r'
          · subst h4
            rw [show escapeList ('\r' :: rest) = '\\' :: 'r' :: escapeList rest from rfl,
              stripNlCr_drop_r rest]
            constructor
            · rw [List.cons_append, List.cons_append,
                show removeEsc ('\\' :: 'r' :: (escapeList rest ++ tail))
                  = removeEsc (escapeList rest ++ tail) by simp [removeEsc]]
              exact IH.1
            · intro _
              rw [List.cons_append, List.cons_append]
              rw [show removeEsc ('\\' :: '\\' :: 'r' :: (escapeList rest ++ tail))
                  = '\\' :: removeEsc ('\\' :: 'r' :: (escapeList rest ++ tail)) by
                simp [removeEsc]]
              rw [show removeEsc ('\\' :: 'r' :: (escapeList rest ++ tail))
                  = removeEsc (escapeList rest ++ tail) by simp [removeEsc]]
              rw [IH.1]
          · by_cases h5 : c = '\t'
            · subst h5
              rw [show escapeList ('\t' :: rest) = '\\' :: 't' :: escapeList rest from rfl,
                stripNlCr_keep rest (by decide) (by decide),
                show escapeList ('\t' :: stripNlCr rest)
                  = '\\' :: 't' :: escapeList (stripNlCr rest) from rfl]
              constructor
              · rw [List.cons_append, List.cons_append,
                  removeEsc_bs_pair _ _ (by decide) (by decide) (by decide), IH.1]
                simp
              · intro _
                rw [List.cons_append, List.cons_append]
                rw [show removeEsc ('\\' :: '\\' :: 't' :: (escapeList rest ++ tail))
                    = '\\' :: removeEsc ('\\' :: 't' :: (escapeList rest ++ tail)) by
                  simp [removeEsc]]
                rw [removeEsc_bs_pair _ _ (by decide) (by decide) (by decide), IH.1]
                simp
            · by_cases h6 : c = '\x08'
              · subst h6
                rw [show escapeList ('\x08' :: rest)
                    = '\\' :: 'b' :: escapeList rest from rfl,
                  stripNlCr_keep rest (by decide) (by decide),
                  show escapeList ('\x08' :: stripNlCr rest)
                    = '\\' :: 'b' :: escapeList (stripNlCr rest) from rfl]
                constructor
                · rw [List.cons_append, List.cons_append,
                    removeEsc_bs_pair _ _ (by decide) (by decide) (by decide), IH.1]
                  simp
                · intro _
                  rw [List.cons_append, List.cons_append]
                  rw [show removeEsc ('\\' :: '\\' :: 'b' :: (escapeList rest ++ tail))
                      = '\\' :: removeEsc ('\\' :: 'b' :: (escapeList rest ++ tail)) by
                    simp [removeEsc]]
                  rw [removeEsc_bs_pair _ _ (by decide) (by decide) (by decide), IH.1]
                  simp
              · by_cases h7 : c = '\x0c'
                · subst h7
                  rw [show escapeList ('\x0c' :: rest)
                      = '\\' :: 'f' :: escapeList rest from rfl,
                    stripNlCr_keep rest (by decide) (by decide),
                    show escapeList ('\x0c' :: stripNlCr rest)
                      = '\\' :: 'f' :: escapeList (stripNlCr rest) from rfl]
                  constructor
                  · rw [List.cons_append, List.cons_append,
                      removeEsc_bs_pair _ _ (by decide) (by decide) (by decide), IH.1]
                    simp
                  · intro _
                    rw [List.cons_append, List.cons_append]
                    rw [show removeEsc ('\\' :: '\\' :: 'f' :: (escapeList rest ++ tail))
                        = '\\' :: removeEsc ('\\' :: 'f' :: (escapeList rest ++ tail)) by
                      simp [removeEsc]]
                    rw [removeEsc_bs_pair _ _ (by decide) (by decide) (by decide), IH.1]
                    simp
                · by_cases h8 : c.toNat < 32
                  · -- `\u00XX` escape
                    have hesc : escChar c
                        = ['\\', 'u', '0', '0', hexChar (c.toNat / 16),
                           hexChar (c.toNat % 16)] := by
                      simp [escChar, h1, h2, h3, h4, h5, h6, h7, h8]
                    have hu : ∀ X : List Char,
                        removeEsc ('\\' :: 'u' :: '0' :: '0'
                            :: hexChar (c.toNat / 16) :: hexChar (c.toNat % 16) :: X)
                          = '\\' :: 'u' :: '0' :: '0'
                            :: hexChar (c.toNat / 16) :: hexChar (c.toNat % 16)
                            :: removeEsc X := by
                      intro X
                      rw [removeEsc_bs_pair _ _ (by decide) (by decide) (by decide)]
                      rw [removeEsc_cons_plain _ _ (by decide)]
                      rw [removeEsc_cons_plain _ _ (by decide)]
                      rw [removeEsc_cons_plain _ _ (hexChar_ne_bs _)]
                      rw [removeEsc_cons_plain _ _ (hexChar_ne_bs _)]
                    rw [show escapeList (c :: rest) = escChar c ++ escapeList rest
                        from rfl,
                      stripNlCr_keep rest h3 h4,
                      show escapeList (c :: stripNlCr rest)
                        = escChar c ++ escapeList (stripNlCr rest) from rfl, hesc]
                    constructor
                    · rw [List.append_assoc]
                      rw [show (['\\', 'u', '0', '0', hexChar (c.toNat / 16),
                          hexChar (c.toNat % 16)] ++ (escapeList rest ++ tail))
                          = '\\' :: 'u' :: '0' :: '0' :: hexChar (c.toNat / 16)
                            :: hexChar (c.toNat % 16) :: (escapeList rest ++ tail)
                        from rfl]
                      rw [hu, IH.1]
                      simp
                    · intro _
                      rw [List.append_assoc]
                      rw [show (['\\', 'u', '0', '0', hexChar (c.toNat / 16),
                          hexChar (c.toNat % 16)] ++ (escapeList rest ++ tail))
                          = '\\' :: 'u' :: '0' :: '0' :: hexChar (c.toNat / 16)
                            :: hexChar (c.toNat % 16) :: (escapeList rest ++ tail)
                        from rfl]
                      rw [show removeEsc ('\\' :: '\\' :: 'u' :: '0' :: '0'
                            :: hexChar (c.toNat / 16) :: hexChar (c.toNat % 16)
                            :: (escapeList rest ++ tail))
                          = '\\' :: removeEsc ('\\' :: 'u' :: '0' :: '0'
                            :: hexChar (c.toNat / 16) :: hexChar (c.toNat % 16)
                            :: (escapeList rest ++ tail)) by simp [removeEsc]]
                      rw [hu, IH.1]
                      simp
                  · -- plain character
                    have hesc : escChar c = [c] := by
                      simp [escChar, h1, h2, h3, h4, h5, h6, h7, h8]
                    rw [show escapeList (c :: rest) = escChar c ++ escapeList rest
                        from rfl,
                      stripNlCr_keep rest h3 h4,
                      show escapeList (c :: stripNlCr rest)
                        = escChar c ++ escapeList (stripNlCr rest) from rfl, hesc]
                    constructor
                    · rw [List.singleton_append, List.cons_append,
                        removeEsc_cons_plain c _ h2, IH.1]
                      simp
                    · intro hcs
                      have hcnr : ¬c = 'n' ∧ ¬c = 'r' := by
                        simpa [headNotNR] using hcs
                      rw [List.singleton_append, List.cons_append]
                      rw [show removeEsc ('\\' :: c :: (escapeList rest ++ tail))
                          = '\\' :: removeEsc (c :: (escapeList rest ++ tail)) by
                        simp [removeEsc, hcnr.1, hcnr.2]]
                      rw [removeEsc_cons_plain c _ h2, IH.1]
                      simp

/-! ### Parser support lemmas: whitespace, digits, string bodies -/

theorem skipWs_not_ws {c : Char} (t : List Char) (h : isWsChar c = false) :
    skipWs (c :: t) = c :: t := by
  simp [skipWs, h]

theorem skipWs_ws {c : Char} (t : List Char) (h : isWsChar c = true) :
    skipWs (c :: t) = skipWs t := by
  simp [skipWs, h]

theorem skipWs_append_ws (w : List Char) (s : List Char)
    (h : w.all isWsChar = true) : skipWs (w ++ s) = skipWs s := by
  induction w with
  | nil => simp
  | cons c w' ih =>
    simp only [List.all_cons, Bool.and_eq_true] at h
    rw [List.cons_append, skipWs_ws _ h.1]
    exact ih h.2

theorem indentChars_all_ws (d : Nat) : (indentChars d).all isWsChar = true := by
  simp only [indentChars, List.all_eq_true]
  intro c hc
  rw [(List.mem_replicate.mp hc).2]
  decide

theorem isDigit_not_ws {c : Char} (h : c.isDigit = true) : isWsChar c = false := by
  by_contra hw
  simp only [Bool.not_eq_false] at hw
  simp only [isWsChar, Bool.or_eq_true, decide_eq_true_eq] at hw
  rcases hw with ((h1 | h1) | h1) | h1 <;> (subst h1; simp at h)

theorem hexChar_digit {k : Nat} (h : k < 10) : (hexChar k).isDigit = true := by
  interval_cases k <;> decide

theorem digitVal_hexChar {k : Nat} (h : k < 10) : digitVal (hexChar k) = k := by
  interval_cases k <;> decide

theorem natChars_cons (n : Nat) :
    ∃ d ds, natChars n = d :: ds ∧ d.isDigit = true := by
  rw [natChars]
  split
  · next h => exact ⟨hexChar n, [], rfl, hexChar_digit h⟩
  · obtain ⟨d, ds, hds, hd⟩ := natChars_cons (n / 10)
    exact ⟨d, ds ++ [hexChar (n % 10)], by rw [hds]; simp, hd⟩
  decreasing_by exact Nat.div_lt_self (by omega) (by omega)

theorem natChars_all_digit (n : Nat) :
    ∀ c ∈ natChars n, c.isDigit = true := by
  rw [natChars]
  split
  · next h =>
    intro c hc
    rw [List.mem_singleton.mp hc]
    exact hexChar_digit h
  · next h =>
    intro c hc
    rcases List.mem_append.mp hc with h1 | h1
    · exact natChars_all_digit (n / 10) c h1
    · rw [List.mem_singleton.mp h1]
      exact hexChar_digit (Nat.mod_lt _ (by omega))
  decreasing_by exact Nat.div_lt_self (by omega) (by omega)

theorem takeWhile_exact (p : Char → Bool) (a b : List Char)
    (ha : ∀ c ∈ a, p c = true) (hb : delimB p b) :
    (a ++ b).takeWhile p = a ∧ (a ++ b).dropWhile p = b := by
  induction a with
  | nil =>
    match b with
    | [] => simp
    | c :: t =>
      simp only [delimB] at hb
      simp [List.takeWhile, List.dropWhile, hb]
  | cons c a' ih =>
    have hc := ha c (List.mem_cons_self c a')
    have ih2 := ih (fun x hx => ha x (List.mem_cons_of_mem _ hx))
    simp only [List.cons_append, List.takeWhile_cons, List.dropWhile_cons, hc,
      if_true]
    exact ⟨by rw [ih2.1], by rw [ih2.2]⟩

theorem digitsVal_natChars (n : Nat) : digitsVal (natChars n) = n := by
  rw [natChars]
  split
  · next h => simp [digitsVal, digitVal_hexChar h]
  · next h =>
    have ih := digitsVal_natChars (n / 10)
    simp only [digitsVal, List.foldl_append, List.foldl_cons, List.foldl_nil]
    rw [show List.foldl (fun a c => a * 10 + digitVal c) 0 (natChars (n / 10))
        = n / 10 from ih]
    rw [digitVal_hexChar (Nat.mod_lt _ (by omega))]
    omega
  decreasing_by exact Nat.div_lt_self (by omega) (by omega)

theorem parseNat_natChars (n : Nat) (rest : List Char)
    (hd : delimOk rest = true) :
    parseNat (natChars n ++ rest) = some (n, rest) := by
  have hdb : delimB (fun c => c.isDigit) rest := by
    match rest with
    | [] => trivial
    | c :: t => simpa [delimOk, delimB] using hd
  have htw := takeWhile_exact (fun c => c.isDigit) (natChars n) rest
    (natChars_all_digit n) hdb
  obtain ⟨d, ds, hds, _⟩ := natChars_cons n
  rw [parseNat]
  simp only [htw.1, htw.2]
  rw [hds]
  simp only [List.isEmpty_cons, Bool.false_eq_true, if_false]
  rw [← hds, digitsVal_natChars]

theorem hexVal_hexChar {x : Nat} (h : x < 16) : hexVal (hexChar x) = x := by
  interval_cases x <;> decide

theorem parseStrBody_u (hA hB : Char) (X : List Char) :
    parseStrBody ('\\' :: 'u' :: '0' :: '0' :: hA :: hB :: X)
      = (parseStrBody X).map (fun p =>
          (Char.ofNat (((hexVal '0' * 16 + hexVal '0') * 16 + hexVal hA) * 16
              + hexVal hB) :: p.1, p.2)) := rfl

theorem parseStrBody_esc (e c2 : Char) (X : List Char) (he : ¬e = 'u')
    (hd : escDecode e = some c2) :
    parseStrBody ('\\' :: e :: X)
      = (parseStrBody X).map (fun p => (c2 :: p.1, p.2)) := by
  rw [parseStrBody.eq_def]
  simp [he, hd]

theorem parseStrBody_plain (c : Char) (X : List Char) (h1 : ¬c = '"')
    (h2 : ¬c = '\\') :
    parseStrBody (c :: X) = (parseStrBody X).map (fun p => (c :: p.1, p.2)) := by
  rw [parseStrBody.eq_def]
  simp [h1, h2]

/-- A serialized string body parses back to the original characters. -/
theorem parseStrBody_escape (cs : List Char) :
    ∀ rest : List Char,
      parseStrBody (escapeList cs ++ '"' :: rest) = some (cs, rest) := by
  induction cs with
  | nil =>
    intro rest
    simp only [escapeList, List.nil_append]
    rw [parseStrBody.eq_def]
    simp
  | cons c cs' ih =>
    intro rest
    rw [show escapeList (c :: cs') = escChar c ++ escapeList cs' from rfl,
      List.append_assoc]
    by_cases h1 : c = '"'
    · subst h1
      rw [show escChar '"' = ['\\', '"'] from rfl]
      rw [show (['\\', '"'] ++ (escapeList cs' ++ '"' :: rest) : List Char)
          = '\\' :: '"' :: (escapeList cs' ++ '"' :: rest) from rfl]
      rw [parseStrBody_esc '"' '"' _ (by decide) (by decide), ih rest]
      rfl
    · by_cases h2 : c = '\\'
      · subst h2
        rw [show escChar '\\' = ['\\', '\\'] from rfl]
        rw [show (['\\', '\\'] ++ (escapeList cs' ++ '"' :: rest) : List Char)
            = '\\' :: '\\' :: (escapeList cs' ++ '"' :: rest) from rfl]
        rw [parseStrBody_esc '\\' '\\' _ (by decide) (by decide), ih rest]
        rfl
      · by_cases h3 : c = '\n'
        · subst h3
          rw [show escChar '\n' = ['\\', 'n'] from rfl]
          rw [show (['\\', 'n'] ++ (escapeList cs' ++ '"' :: rest) : List Char)
              = '\\' :: 'n' :: (escapeList cs' ++ '"' :: rest) from rfl]
          rw [parseStrBody_esc 'n' '\n' _ (by decide) (by decide), ih rest]
          rfl
        · by_cases h4 : c = '\r'
          · subst h4
            rw [show escChar '\r' = ['\\', 'r'] from rfl]
            rw [show (['\\', 'r'] ++ (escapeList cs' ++ '"' :: rest) : List Char)
                = '\\' :: 'r' :: (escapeList cs' ++ '"' :: rest) from rfl]
            rw [parseStrBody_esc 'r' '\r' _ (by decide) (by decide), ih rest]
            rfl
          · by_cases h5 : c = '\t'
            · subst h5
              rw [show escChar '\t' = ['\\', 't'] from rfl]
              rw [show (['\\', 't'] ++ (escapeList cs' ++ '"' :: rest) : List Char)
                  = '\\' :: 't' :: (escapeList cs' ++ '"' :: rest) from rfl]
              rw [parseStrBody_esc 't' '\t' _ (by decide) (by decide), ih rest]
              rfl
            · by_cases h6 : c = '\x08'
              · subst h6
                rw [show escChar '\x08' = ['\\', 'b'] from rfl]
                rw [show (['\\', 'b'] ++ (escapeList cs' ++ '"' :: rest) : List Char)
                    = '\\' :: 'b' :: (escapeList cs' ++ '"' :: rest) from rfl]
                rw [parseStrBody_esc 'b' '\x08' _ (by decide) (by decide), ih rest]
                rfl
              · by_cases h7 : c = '\x0c'
                · subst h7
                  rw [show escChar '\x0c' = ['\\', 'f'] from rfl]
                  rw [show (['\\', 'f'] ++ (escapeList cs' ++ '"' :: rest) : List Char)
                      = '\\' :: 'f' :: (escapeList cs' ++ '"' :: rest) from rfl]
                  rw [parseStrBody_esc 'f' '\x0c' _ (by decide) (by decide), ih rest]
                  rfl
                · by_cases h8 : c.toNat < 32
                  · have hesc : escChar c
                        = ['\\', 'u', '0', '0', hexChar (c.toNat / 16),
                           hexChar (c.toNat % 16)] := by
                      simp [escChar, h1, h2, h3, h4, h5, h6, h7, h8]
                    rw [hesc]
                    rw [show (['\\', 'u', '0', '0', hexChar (c.toNat / 16),
                          hexChar (c.toNat % 16)]
                          ++ (escapeList cs' ++ '"' :: rest) : List Char)
                        = '\\' :: 'u' :: '0' :: '0' :: hexChar (c.toNat / 16)
                          :: hexChar (c.toNat % 16)
                          :: (escapeList cs' ++ '"' :: rest) from rfl]
                    rw [parseStrBody_u, ih rest]
                    have hval : ((hexVal '0' * 16 + hexVal '0') * 16
                          + hexVal (hexChar (c.toNat / 16))) * 16
                          + hexVal (hexChar (c.toNat % 16)) = c.toNat := by
                      rw [hexVal_hexChar (by omega), hexVal_hexChar (by omega)]
                      have h0 : hexVal '0' = 0 := by decide
                      rw [h0]
                      omega
                    simp only [Option.map_some']
                    rw [show Char.ofNat (((hexVal '0' * 16 + hexVal '0') * 16
                          + hexVal (hexChar (c.toNat / 16))) * 16
                          + hexVal (hexChar (c.toNat % 16))) = c by
                      rw [hval]; exact Char.ofNat_toNat c]
                  · have hesc : escChar c = [c] := by
                      simp [escChar, h1, h2, h3, h4, h5, h6, h7, h8]
                    rw [hesc, List.singleton_append,
                      parseStrBody_plain c _ h1 h2, ih rest]
                    rfl

/-! ### Whitespace invariance of the parsers and head shapes -/

theorem parseVal_ws (fuel : Nat) (w s : List Char) (hw : w.all isWsChar = true) :
    parseVal fuel (w ++ s) = parseVal fuel s := by
  cases fuel with
  | zero => rfl
  | succ f => simp only [parseVal, skipWs_append_ws w s hw]

theorem parseItems_ws (fuel : Nat) (w s : List Char)
    (hw : w.all isWsChar = true) :
    parseItems fuel (w ++ s) = parseItems fuel s := by
  cases fuel with
  | zero => rfl
  | succ f => simp only [parseItems, parseVal_ws f w s hw]

theorem parseMembers_ws (fuel : Nat) (w s : List Char)
    (hw : w.all isWsChar = true) :
    parseMembers fuel (w ++ s) = parseMembers fuel s := by
  cases fuel with
  | zero => rfl
  | succ f => simp only [parseMembers, skipWs_append_ws w s hw]

theorem digit_ne (c : Char) (h : c.isDigit = true) :
    ¬c = 'n' ∧ ¬c = 't' ∧ ¬c = 'f' ∧ ¬c = '"' ∧ ¬c = '[' ∧ ¬c = '\x7b'
      ∧ ¬c = '-' ∧ ¬c = ']' ∧ ¬c = '\x7d' := by
  refine ⟨?_, ?_, ?_, ?_, ?_, ?_, ?_, ?_, ?_⟩ <;>
    (intro heq; rw [heq] at h; exact absurd h (by decide))

/-- The serialized form of any tree starts with a character that is neither
whitespace nor a closing bracket. -/
theorem ser_shape (ind : Nat) (v : Json) :
    ∃ c t, ser ind v = c :: t ∧ isWsChar c = false ∧ ¬c = ']' ∧ ¬c = '\x7d' := by
  cases v with
  | null => exact ⟨'n', _, by rw [ser], by decide, by decide, by decide⟩
  | bool b =>
    cases b with
    | true => exact ⟨'t', _, by rw [ser], by decide, by decide, by decide⟩
    | false => exact ⟨'f', _, by rw [ser], by decide, by decide, by decide⟩
  | str s =>
    exact ⟨'"', escapeList s.data ++ ['"'], by rw [ser]; simp, by decide,
      by decide, by decide⟩
  | num i =>
    cases i with
    | ofNat n =>
      obtain ⟨d, ds, hds, hd⟩ := natChars_cons n
      have hne := digit_ne d hd
      exact ⟨d, ds, by rw [ser, intChars, hds], isDigit_not_ws hd,
        hne.2.2.2.2.2.2.2.1, hne.2.2.2.2.2.2.2.2⟩
    | negSucc m =>
      exact ⟨'-', _, by rw [ser, intChars], by decide, by decide, by decide⟩
  | arr xs =>
    cases xs with
    | nil => exact ⟨'[', _, by rw [ser], by decide, by decide, by decide⟩
    | cons x xs' => exact ⟨'[', _, by rw [ser], by decide, by decide, by decide⟩
  | obj kvs =>
    match kvs with
    | [] => exact ⟨'\x7b', _, by rw [ser], by decide, by decide, by decide⟩
    | (k, v') :: kvs' =>
      exact ⟨'\x7b', _, by rw [ser], by decide, by decide, by decide⟩

theorem skipWs_ser (ind : Nat) (v : Json) (X : List Char) :
    skipWs (ser ind v ++ X) = ser ind v ++ X := by
  obtain ⟨c, t, hct, hws, _⟩ := ser_shape ind v
  rw [hct, List.cons_append, skipWs_not_ws _ hws]

theorem jfuel_pos (v : Json) : 1 ≤ jfuel v := by
  cases v <;> simp [jfuel]

theorem jfuelL_pos (xs : List Json) : 1 ≤ jfuelL xs := by
  cases xs <;> simp [jfuelL] <;> omega

theorem jfuelM_pos (kvs : List (String × Json)) : 1 ≤ jfuelM kvs := by
  match kvs with
  | [] => simp [jfuelM]
  | (k, v) :: rest => simp [jfuelM]; omega

mutual

theorem jfuel_le (ind : Nat) (v : Json) : jfuel v ≤ (ser ind v).length := by
  match v with
  | .null => simp [jfuel, ser]
  | .bool true => simp [jfuel, ser]
  | .bool false => simp [jfuel, ser]
  | .num i =>
    cases i with
    | ofNat n =>
      obtain ⟨d, ds, hds, _⟩ := natChars_cons n
      simp [jfuel, ser, intChars, hds]
    | negSucc m => simp [jfuel, ser, intChars]
  | .str s => simp [jfuel, ser]
  | .arr [] => simp [jfuel, jfuelL, ser]
  | .arr (x :: xs) =>
    have h := jfuelL_le (ind + 1) ind x xs (by omega)
    simp only [jfuel, ser, List.length_cons, List.length_append]
    omega
  | .obj [] => simp [jfuel, jfuelM, ser]
  | .obj ((k, v') :: kvs) =>
    have h := jfuelM_le (ind + 1) ind k v' kvs (by omega)
    simp only [jfuel, ser, List.length_cons, List.length_append]
    omega
termination_by (sizeOf v, 0)
decreasing_by all_goals simp_wf <;> omega

theorem jfuelL_le (d ind : Nat) (x : Json) (xs : List Json) (hd : 1 ≤ d) :
    jfuelL (x :: xs) ≤ (serItems d x xs).length := by
  match xs with
  | [] =>
    have h := jfuel_le d x
    simp only [jfuelL, serItems, List.length_append, indentChars,
      List.length_replicate]
    omega
  | y :: ys =>
    have h1 := jfuel_le d x
    have h2 := jfuelL_le d ind y ys hd
    simp only [jfuelL, serItems, List.length_append, List.length_cons,
      indentChars, List.length_replicate] at h2 ⊢
    omega
termination_by (sizeOf x + sizeOf xs, 1)
decreasing_by all_goals simp_wf <;> omega

theorem jfuelM_le (d ind : Nat) (k : String) (v : Json)
    (kvs : List (String × Json)) (hd : 1 ≤ d) :
    jfuelM ((k, v) :: kvs) ≤ (serMembers d k v kvs).length := by
  match kvs with
  | [] =>
    have h := jfuel_le d v
    simp only [jfuelM, serMembers, List.length_append, List.length_cons,
      indentChars, List.length_replicate]
    omega
  | (k2, v2) :: kvs' =>
    have h1 := jfuel_le d v
    have h2 := jfuelM_le d ind k2 v2 kvs' hd
    simp only [jfuelM, serMembers, List.length_append, List.length_cons,
      indentChars, List.length_replicate] at h2 ⊢
    omega
termination_by (sizeOf v + sizeOf kvs, 1)
decreasing_by all_goals simp_wf <;> omega

end

theorem skipWs_serItems_shape (d : Nat) (x : Json) (xs : List Json)
    (T : List Char) :
    ∃ c t, skipWs (serItems d x xs ++ T) = c :: t ∧ ¬c = ']' ∧ ¬c = '\x7d' := by
  obtain ⟨c, t, hct, hws, h1, h2⟩ := ser_shape d x
  cases xs with
  | nil =>
    rw [show serItems d x [] ++ T = indentChars d ++ (ser d x ++ T) by
      rw [serItems]; simp]
    rw [skipWs_append_ws _ _ (indentChars_all_ws d), skipWs_ser]
    exact ⟨c, t ++ T, by rw [hct]; simp, h1, h2⟩
  | cons y ys =>
    rw [show serItems d x (y :: ys) ++ T
        = indentChars d ++ (ser d x ++ (',' :: '\n' :: (serItems d y ys ++ T))) by
      rw [serItems]; simp]
    rw [skipWs_append_ws _ _ (indentChars_all_ws d), skipWs_ser]
    exact ⟨c, t ++ (',' :: '\n' :: (serItems d y ys ++ T)), by rw [hct]; simp,
      h1, h2⟩

theorem skipWs_serMembers_shape (d : Nat) (k : String) (v : Json)
    (kvs : List (String × Json)) (T : List Char) :
    ∃ t, skipWs (serMembers d k v kvs ++ T) = '"' :: t := by
  match kvs with
  | [] =>
    rw [show serMembers d k v [] ++ T
        = indentChars d ++ ('"' :: (escapeList k.data ++ '"' :: ':' :: ' '
            :: (ser d v ++ T))) by rw [serMembers]; simp]
    rw [skipWs_append_ws _ _ (indentChars_all_ws d), skipWs_not_ws _ (by decide)]
    exact ⟨_, rfl⟩
  | (k2, v2) :: kvs' =>
    rw [show serMembers d k v ((k2, v2) :: kvs') ++ T
        = indentChars d ++ ('"' :: (escapeList k.data ++ '"' :: ':' :: ' '
            :: (ser d v ++ (',' :: '\n' :: (serMembers d k2 v2 kvs' ++ T))))) by
      rw [serMembers]; simp]
    rw [skipWs_append_ws _ _ (indentChars_all_ws d), skipWs_not_ws _ (by decide)]
    exact ⟨_, rfl⟩

theorem parseItems_succ (fuel : Nat) (s r : List Char) (v : Json)
    (h : parseVal fuel s = some (v, r)) :
    parseItems (fuel + 1) s
      = if headEq (skipWs r) ',' then
          (parseItems fuel (tailOf (skipWs r))).map (fun p => (v :: p.1, p.2))
        else if headEq (skipWs r) ']' then some ([v], tailOf (skipWs r))
        else none := by
  simp only [parseItems, h]

theorem parseMembers_succ (fuel : Nat) (s k r2 : List Char) (v : Json)
    (r4 : List Char)
    (hq : headEq (skipWs s) '"' = true)
    (hk : parseStrBody (tailOf (skipWs s)) = some (k, r2))
    (hc : headEq (skipWs r2) ':' = true)
    (hv : parseVal fuel (tailOf (skipWs r2)) = some (v, r4)) :
    parseMembers (fuel + 1) s
      = if headEq (skipWs r4) ',' then
          (parseMembers fuel (tailOf (skipWs r4))).map
            (fun p => ((String.mk k, v) :: p.1, p.2))
        else if headEq (skipWs r4) '\x7d' then
          some ([(String.mk k, v)], tailOf (skipWs r4))
        else none := by
  simp only [parseMembers, hq, if_true, hk, hc, hv]

mutual

/-- A serialized value parses back to itself (with enough fuel and a
non-digit delimiter following). -/
theorem parseVal_ser (fuel ind : Nat) (v : Json) (rest : List Char)
    (hf : jfuel v ≤ fuel) (hrest : delimOk rest = true) :
    parseVal fuel (ser ind v ++ rest) = some (v, rest) := by
  match fuel with
  | 0 => exact absurd hf (by have := jfuel_pos v; omega)
  | f + 1 =>
    match v with
    | .null =>
      rw [show ser ind .null ++ rest = 'n' :: 'u' :: 'l' :: 'l' :: rest by
        rw [ser]; rfl]
      simp [parseVal, skipWs, isWsChar]
    | .bool true =>
      rw [show ser ind (.bool true) ++ rest = 't' :: 'r' :: 'u' :: 'e' :: rest by
        rw [ser]; rfl]
      simp [parseVal, skipWs, isWsChar]
    | .bool false =>
      rw [show ser ind (.bool false) ++ rest
          = 'f' :: 'a' :: 'l' :: 's' :: 'e' :: rest by rw [ser]; rfl]
      simp [parseVal, skipWs, isWsChar]
    | .num (Int.ofNat n) =>
      obtain ⟨d, ds, hds, hdig⟩ := natChars_cons n
      have hne := digit_ne d hdig
      rw [show ser ind (.num (Int.ofNat n)) ++ rest = d :: (ds ++ rest) by
        rw [ser, intChars, hds]; rfl]
      simp only [parseVal]
      rw [skipWs_not_ws _ (isDigit_not_ws hdig)]
      simp only [hne.1, hne.2.1, hne.2.2.1, hne.2.2.2.1, hne.2.2.2.2.1,
        hne.2.2.2.2.2.1, hne.2.2.2.2.2.2.1, if_false, hdig, if_true]
      rw [show d :: (ds ++ rest) = natChars n ++ rest by rw [hds]; rfl,
        parseNat_natChars n rest hrest]
      rfl
    | .num (Int.negSucc m) =>
      rw [show ser ind (.num (Int.negSucc m)) ++ rest
          = '-' :: (natChars (m + 1) ++ rest) by rw [ser, intChars]; rfl]
      simp only [parseVal]
      rw [skipWs_not_ws _ (by decide)]
      simp only [show ('-' : Char) = 'n' ↔ False by simp,
        show ('-' : Char) = 't' ↔ False by simp,
        show ('-' : Char) = 'f' ↔ False by simp,
        show ('-' : Char) = '"' ↔ False by simp,
        show ('-' : Char) = '[' ↔ False by simp,
        show ('-' : Char) = '\x7b' ↔ False by simp,
        if_false, if_pos rfl]
      rw [parseNat_natChars (m + 1) rest hrest]
      simp only [if_true, Option.map_some', Option.some.injEq, Prod.mk.injEq,
        Json.num.injEq, Int.negSucc_eq, eq_self_iff_true, and_true]
      push_cast
      ring
    | .str s =>
      rw [show ser ind (.str s) ++ rest
          = '"' :: (escapeList s.data ++ '"' :: rest) by rw [ser]; simp]
      simp only [parseVal]
      rw [skipWs_not_ws _ (by decide)]
      simp only [show ('"' : Char) = 'n' ↔ False by simp,
        show ('"' : Char) = 't' ↔ False by simp,
        show ('"' : Char) = 'f' ↔ False by simp,
        if_false, if_pos rfl]
      rw [parseStrBody_escape s.data rest]
      rfl
    | .arr [] =>
      rw [show ser ind (.arr []) ++ rest = '[' :: (']' :: rest) by rw [ser]; rfl]
      simp [parseVal, skipWs, isWsChar, headEq, tailOf]
    | .arr (x :: xs) =>
      have hfx : jfuelL (x :: xs) ≤ f := by
        simp only [jfuel] at hf; omega
      rw [show ser ind (.arr (x :: xs)) ++ rest
          = '[' :: ('\n' :: (serItems (ind + 1) x xs
              ++ ('\n' :: (indentChars ind ++ (']' :: rest))))) by
        rw [ser]; simp]
      simp only [parseVal]
      rw [skipWs_not_ws _ (by decide)]
      simp only [show ('[' : Char) = 'n' ↔ False by simp,
        show ('[' : Char) = 't' ↔ False by simp,
        show ('[' : Char) = 'f' ↔ False by simp,
        show ('[' : Char) = '"' ↔ False by simp,
        if_false, if_pos rfl]
      obtain ⟨c0, t0, hct0, hne1, _⟩ := skipWs_serItems_shape (ind + 1) x xs
        ('\n' :: (indentChars ind ++ (']' :: rest)))
      rw [show skipWs ('\n' :: (serItems (ind + 1) x xs
            ++ ('\n' :: (indentChars ind ++ (']' :: rest)))))
          = c0 :: t0 by rw [skipWs_ws _ (by decide)]; exact hct0]
      rw [show headEq (c0 :: t0) ']' = false by simp [headEq, hne1]]
      simp only [Bool.false_eq_true, if_false]
      rw [show ('\n' :: (serItems (ind + 1) x xs
            ++ ('\n' :: (indentChars ind ++ (']' :: rest)))))
          = ['\n'] ++ (serItems (ind + 1) x xs
              ++ ('\n' :: (indentChars ind ++ (']' :: rest)))) from rfl]
      rw [parseItems_ws f _ _ (by decide),
        parseItems_ser f (ind + 1) ind x xs rest hfx]
      rfl
    | .obj [] =>
      rw [show ser ind (.obj []) ++ rest = '\x7b' :: ('\x7d' :: rest) by
        rw [ser]; rfl]
      simp [parseVal, skipWs, isWsChar, headEq, tailOf]
    | .obj ((k, v') :: kvs) =>
      have hfx : jfuelM ((k, v') :: kvs) ≤ f := by
        simp only [jfuel] at hf; omega
      rw [show ser ind (.obj ((k, v') :: kvs)) ++ rest
          = '\x7b' :: ('\n' :: (serMembers (ind + 1) k v' kvs
              ++ ('\n' :: (indentChars ind ++ ('\x7d' :: rest))))) by
        rw [ser]; simp]
      simp only [parseVal]
      rw [skipWs_not_ws _ (by decide)]
      simp only [show ('\x7b' : Char) = 'n' ↔ False by simp,
        show ('\x7b' : Char) = 't' ↔ False by simp,
        show ('\x7b' : Char) = 'f' ↔ False by simp,
        show ('\x7b' : Char) = '"' ↔ False by simp,
        show ('\x7b' : Char) = '[' ↔ False by simp,
        if_false, if_pos rfl]
      obtain ⟨t0, hct0⟩ := skipWs_serMembers_shape (ind + 1) k v' kvs
        ('\n' :: (indentChars ind ++ ('\x7d' :: rest)))
      rw [show skipWs ('\n' :: (serMembers (ind + 1) k v' kvs
            ++ ('\n' :: (indentChars ind ++ ('\x7d' :: rest)))))
          = '"' :: t0 by rw [skipWs_ws _ (by decide)]; exact hct0]
      rw [show headEq ('"' :: t0) '\x7d' = false by simp [headEq]]
      simp only [Bool.false_eq_true, if_false]
      rw [show ('\n' :: (serMembers (ind + 1) k v' kvs
            ++ ('\n' :: (indentChars ind ++ ('\x7d' :: rest)))))
          = ['\n'] ++ (serMembers (ind + 1) k v' kvs
              ++ ('\n' :: (indentChars ind ++ ('\x7d' :: rest)))) from rfl]
      rw [parseMembers_ws f _ _ (by decide),
        parseMembers_ser f (ind + 1) ind k v' kvs rest hfx]
      rfl
termination_by (fuel, 0)
decreasing_by all_goals simp_wf <;> omega

theorem parseItems_ser (fuel d ind : Nat) (x : Json) (xs : List Json)
    (rest : List Char) (hf : jfuelL (x :: xs) ≤ fuel) :
    parseItems fuel (serItems d x xs
        ++ ('\n' :: (indentChars ind ++ (']' :: rest))))
      = some (x :: xs, rest) := by
  match fuel with
  | 0 => exact absurd hf (by have := jfuelL_pos (x :: xs); omega)
  | f + 1 =>
    have hfx : jfuel x ≤ f := by
      have h1 := jfuelL_pos xs
      simp only [jfuelL] at hf; omega
    cases xs with
    | nil =>
      have hval : parseVal f (indentChars d ++ (ser d x
            ++ ('\n' :: (indentChars ind ++ (']' :: rest)))))
          = some (x, '\n' :: (indentChars ind ++ (']' :: rest))) := by
        rw [parseVal_ws f _ _ (indentChars_all_ws d),
          parseVal_ser f d x _ hfx (by rfl)]
      rw [show serItems d x [] ++ ('\n' :: (indentChars ind ++ (']' :: rest)))
          = indentChars d ++ (ser d x
              ++ ('\n' :: (indentChars ind ++ (']' :: rest)))) by
        rw [serItems]; simp]
      rw [parseItems_succ f _ _ x hval]
      rw [show skipWs ('\n' :: (indentChars ind ++ (']' :: rest))) = ']' :: rest by
        rw [skipWs_ws _ (by decide), skipWs_append_ws _ _ (indentChars_all_ws ind),
          skipWs_not_ws _ (by decide)]]
      rw [if_neg (show ¬ headEq (']' :: rest) ',' = true by simp [headEq])]
      rw [if_pos (show headEq (']' :: rest) ']' = true by simp [headEq])]
      rfl
    | cons y ys =>
      have hfy : jfuelL (y :: ys) ≤ f := by
        have h1 := jfuel_pos x
        simp only [jfuelL] at hf ⊢; omega
      have hval : parseVal f (indentChars d ++ (ser d x ++ (',' :: '\n'
            :: (serItems d y ys
              ++ ('\n' :: (indentChars ind ++ (']' :: rest)))))))
          = some (x, ',' :: '\n' :: (serItems d y ys
              ++ ('\n' :: (indentChars ind ++ (']' :: rest))))) := by
        rw [parseVal_ws f _ _ (indentChars_all_ws d),
          parseVal_ser f d x _ hfx (by rfl)]
      rw [show serItems d x (y :: ys)
            ++ ('\n' :: (indentChars ind ++ (']' :: rest)))
          = indentChars d ++ (ser d x ++ (',' :: '\n' :: (serItems d y ys
              ++ ('\n' :: (indentChars ind ++ (']' :: rest)))))) by
        rw [serItems]; simp]
      rw [parseItems_succ f _ _ x hval]
      rw [show skipWs (',' :: '\n' :: (serItems d y ys
            ++ ('\n' :: (indentChars ind ++ (']' :: rest)))))
          = ',' :: '\n' :: (serItems d y ys
            ++ ('\n' :: (indentChars ind ++ (']' :: rest)))) by
        rw [skipWs_not_ws _ (by decide)]]
      rw [if_pos (show headEq (',' :: '\n' :: (serItems d y ys
            ++ ('\n' :: (indentChars ind ++ (']' :: rest))))) ',' = true by
        simp [headEq])]
      rw [show tailOf (',' :: '\n' :: (serItems d y ys
            ++ ('\n' :: (indentChars ind ++ (']' :: rest)))))
          = ['\n'] ++ (serItems d y ys
              ++ ('\n' :: (indentChars ind ++ (']' :: rest)))) from rfl]
      rw [parseItems_ws f _ _ (by decide),
        parseItems_ser f d ind y ys rest hfy]
      rfl
termination_by (fuel, 1)
decreasing_by all_goals simp_wf <;> omega

theorem parseMembers_ser (fuel d ind : Nat) (k : String) (v : Json)
    (kvs : List (String × Json)) (rest : List Char)
    (hf : jfuelM ((k, v) :: kvs) ≤ fuel) :
    parseMembers fuel (serMembers d k v kvs
        ++ ('\n' :: (indentChars ind ++ ('\x7d' :: rest))))
      = some ((k, v) :: kvs, rest) := by
  match fuel with
  | 0 => exact absurd hf (by have := jfuelM_pos ((k, v) :: kvs); omega)
  | f + 1 =>
    have hfv : jfuel v ≤ f := by
      have h1 := jfuelM_pos kvs
      simp only [jfuelM] at hf; omega
    match kvs with
    | [] =>
      have hs : skipWs (indentChars d ++ ('"' :: (escapeList k.data
            ++ '"' :: (':' :: (' ' :: (ser d v
              ++ ('\n' :: (indentChars ind ++ ('\x7d' :: rest)))))))))
          = '"' :: (escapeList k.data ++ '"' :: (':' :: (' ' :: (ser d v
              ++ ('\n' :: (indentChars ind ++ ('\x7d' :: rest))))))) := by
        rw [skipWs_append_ws _ _ (indentChars_all_ws d),
          skipWs_not_ws _ (by decide)]
      have hq : headEq (skipWs (indentChars d ++ ('"' :: (escapeList k.data
            ++ '"' :: (':' :: (' ' :: (ser d v
              ++ ('\n' :: (indentChars ind ++ ('\x7d' :: rest)))))))))) '"'
          = true := by rw [hs]; simp [headEq]
      have hk : parseStrBody (tailOf (skipWs (indentChars d
            ++ ('"' :: (escapeList k.data ++ '"' :: (':' :: (' ' :: (ser d v
              ++ ('\n' :: (indentChars ind ++ ('\x7d' :: rest)))))))))))
          = some (k.data, ':' :: (' ' :: (ser d v
              ++ ('\n' :: (indentChars ind ++ ('\x7d' :: rest)))))) := by
        rw [hs]
        rw [show tailOf ('"' :: (escapeList k.data ++ '"' :: (':' :: (' '
              :: (ser d v ++ ('\n' :: (indentChars ind ++ ('\x7d' :: rest))))))))
            = escapeList k.data ++ '"' :: (':' :: (' ' :: (ser d v
              ++ ('\n' :: (indentChars ind ++ ('\x7d' :: rest)))))) from rfl]
        rw [parseStrBody_escape k.data]
      have hc : headEq (skipWs (':' :: (' ' :: (ser d v
            ++ ('\n' :: (indentChars ind ++ ('\x7d' :: rest))))))) ':'
          = true := by
        rw [skipWs_not_ws _ (by decide)]; simp [headEq]
      have hv2 : parseVal f (tailOf (skipWs (':' :: (' ' :: (ser d v
            ++ ('\n' :: (indentChars ind ++ ('\x7d' :: rest))))))))
          = some (v, '\n' :: (indentChars ind ++ ('\x7d' :: rest))) := by
        rw [skipWs_not_ws _ (by decide)]
        rw [show tailOf (':' :: (' ' :: (ser d v
              ++ ('\n' :: (indentChars ind ++ ('\x7d' :: rest))))))
            = [' '] ++ (ser d v ++ ('\n' :: (indentChars ind
                ++ ('\x7d' :: rest)))) from rfl]
        rw [parseVal_ws f _ _ (by decide), parseVal_ser f d v _ hfv (by rfl)]
      rw [show serMembers d k v []
            ++ ('\n' :: (indentChars ind ++ ('\x7d' :: rest)))
          = indentChars d ++ ('"' :: (escapeList k.data ++ '"' :: (':' :: (' '
              :: (ser d v ++ ('\n' :: (indentChars ind ++ ('\x7d' :: rest))))))))
          by rw [serMembers]; simp]
      rw [parseMembers_succ f _ _ _ v _ hq hk hc hv2]
      rw [show skipWs ('\n' :: (indentChars ind ++ ('\x7d' :: rest)))
          = '\x7d' :: rest by
        rw [skipWs_ws _ (by decide), skipWs_append_ws _ _ (indentChars_all_ws ind),
          skipWs_not_ws _ (by decide)]]
      rw [if_neg (show ¬ headEq ('\x7d' :: rest) ',' = true by simp [headEq])]
      rw [if_pos (show headEq ('\x7d' :: rest) '\x7d' = true by simp [headEq])]
      rfl
    | (k2, v2) :: kvs' =>
      have hfk2 : jfuelM ((k2, v2) :: kvs') ≤ f := by
        have h1 := jfuel_pos v
        simp only [jfuelM] at hf ⊢; omega
      have hs : skipWs (indentChars d ++ ('"' :: (escapeList k.data
            ++ '"' :: (':' :: (' ' :: (ser d v
              ++ (',' :: '\n' :: (serMembers d k2 v2 kvs'
                ++ ('\n' :: (indentChars ind ++ ('\x7d' :: rest)))))))))))
          = '"' :: (escapeList k.data ++ '"' :: (':' :: (' ' :: (ser d v
              ++ (',' :: '\n' :: (serMembers d k2 v2 kvs'
                ++ ('\n' :: (indentChars ind ++ ('\x7d' :: rest))))))))) := by
        rw [skipWs_append_ws _ _ (indentChars_all_ws d),
          skipWs_not_ws _ (by decide)]
      have hq : headEq (skipWs (indentChars d ++ ('"' :: (escapeList k.data
            ++ '"' :: (':' :: (' ' :: (ser d v
              ++ (',' :: '\n' :: (serMembers d k2 v2 kvs'
                ++ ('\n' :: (indentChars ind ++ ('\x7d' :: rest))))))))))))
          '"' = true := by rw [hs]; simp [headEq]
      have hk : parseStrBody (tailOf (skipWs (indentChars d
            ++ ('"' :: (escapeList k.data ++ '"' :: (':' :: (' ' :: (ser d v
              ++ (',' :: '\n' :: (serMembers d k2 v2 kvs'
                ++ ('\n' :: (indentChars ind ++ ('\x7d' :: rest)))))))))))))
          = some (k.data, ':' :: (' ' :: (ser d v
              ++ (',' :: '\n' :: (serMembers d k2 v2 kvs'
                ++ ('\n' :: (indentChars ind ++ ('\x7d' :: rest)))))))) := by
        rw [hs]
        rw [show tailOf ('"' :: (escapeList k.data ++ '"' :: (':' :: (' '
              :: (ser d v ++ (',' :: '\n' :: (serMembers d k2 v2 kvs'
                ++ ('\n' :: (indentChars ind ++ ('\x7d' :: rest))))))))))
            = escapeList k.data ++ '"' :: (':' :: (' ' :: (ser d v
              ++ (',' :: '\n' :: (serMembers d k2 v2 kvs'
                ++ ('\n' :: (indentChars ind ++ ('\x7d' :: rest))))))))
            from rfl]
        rw [parseStrBody_escape k.data]
      have hc : headEq (skipWs (':' :: (' ' :: (ser d v
            ++ (',' :: '\n' :: (serMembers d k2 v2 kvs'
              ++ ('\n' :: (indentChars ind ++ ('\x7d' :: rest))))))))) ':'
          = true := by
        rw [skipWs_not_ws _ (by decide)]; simp [headEq]
      have hv2 : parseVal f (tailOf (skipWs (':' :: (' ' :: (ser d v
            ++ (',' :: '\n' :: (serMembers d k2 v2 kvs'
              ++ ('\n' :: (indentChars ind ++ ('\x7d' :: rest))))))))))
          = some (v, ',' :: '\n' :: (serMembers d k2 v2 kvs'
              ++ ('\n' :: (indentChars ind ++ ('\x7d' :: rest))))) := by
        rw [skipWs_not_ws _ (by decide)]
        rw [show tailOf (':' :: (' ' :: (ser d v
              ++ (',' :: '\n' :: (serMembers d k2 v2 kvs'
                ++ ('\n' :: (indentChars ind ++ ('\x7d' :: rest))))))))
            = [' '] ++ (ser d v ++ (',' :: '\n' :: (serMembers d k2 v2 kvs'
                ++ ('\n' :: (indentChars ind ++ ('\x7d' :: rest))))))
            from rfl]
        rw [parseVal_ws f _ _ (by decide), parseVal_ser f d v _ hfv (by rfl)]
      rw [show serMembers d k v ((k2, v2) :: kvs')
            ++ ('\n' :: (indentChars ind ++ ('\x7d' :: rest)))
          = indentChars d ++ ('"' :: (escapeList k.data ++ '"' :: (':' :: (' '
              :: (ser d v ++ (',' :: '\n' :: (serMembers d k2 v2 kvs'
                ++ ('\n' :: (indentChars ind ++ ('\x7d' :: rest)))))))))) by
        rw [serMembers]; simp]
      rw [parseMembers_succ f _ _ _ v _ hq hk hc hv2]
      rw [show skipWs (',' :: '\n' :: (serMembers d k2 v2 kvs'
            ++ ('\n' :: (indentChars ind ++ ('\x7d' :: rest)))))
          = ',' :: '\n' :: (serMembers d k2 v2 kvs'
            ++ ('\n' :: (indentChars ind ++ ('\x7d' :: rest)))) by
        rw [skipWs_not_ws _ (by decide)]]
      rw [if_pos (show headEq (',' :: '\n' :: (serMembers d k2 v2 kvs'
            ++ ('\n' :: (indentChars ind ++ ('\x7d' :: rest))))) ',' = true by
        simp [headEq])]
      rw [show tailOf (',' :: '\n' :: (serMembers d k2 v2 kvs'
            ++ ('\n' :: (indentChars ind ++ ('\x7d' :: rest)))))
          = ['\n'] ++ (serMembers d k2 v2 kvs'
              ++ ('\n' :: (indentChars ind ++ ('\x7d' :: rest)))) from rfl]
      rw [parseMembers_ws f _ _ (by decide),
        parseMembers_ser f d ind k2 v2 kvs' rest hfk2]
      rfl
termination_by (fuel, 1)
decreasing_by all_goals simp_wf <;> omega

end

/-! ### Extraction is the identity on intrinsic-free documents -/

mutual

theorem extract_id (c : Nat) (v : Json) (h : hasIntrinsic v = false) :
    extract c v = (v, [], c) := by
  match v with
  | .obj kvs =>
    have h2 : hasIntrinsicM kvs = false := by
      simp only [hasIntrinsic, Bool.or_eq_false_iff] at h; exact h.2
    simp [extract, extractMembers_id c kvs h2]
  | .arr xs =>
    have h2 : hasIntrinsicL xs = false := by
      simp only [hasIntrinsic, Bool.or_eq_false_iff] at h; exact h.2
    simp [extract, extractEntries_id c xs h2]
  | .null => simp [extract]
  | .bool b => simp [extract]
  | .num n => simp [extract]
  | .str s => simp [extract]

theorem extractVal_id (c : Nat) (v : Json) (h : hasIntrinsic v = false) :
    extractVal c v = (v, [], c) := by
  match v with
  | .arr xs =>
    have h2 : hasIntrinsicL xs = false := by
      simp only [hasIntrinsic, Bool.or_eq_false_iff] at h; exact h.2
    simp [extractVal, extractRoots_id c xs h2]
  | .obj kvs =>
    have hint : isIntrinsic (.obj kvs) = false := by
      simp only [hasIntrinsic, Bool.or_eq_false_iff] at h; exact h.1
    simp only [extractVal, hint, Bool.false_eq_true, if_false]
    exact extract_id c (.obj kvs) h
  | .null => simp [extractVal, isIntrinsic]
  | .bool b => simp [extractVal, isIntrinsic]
  | .num n => simp [extractVal, isIntrinsic]
  | .str s => simp [extractVal, isIntrinsic]

theorem extractMembers_id (c : Nat) (kvs : List (String × Json))
    (h : hasIntrinsicM kvs = false) :
    extractMembers c kvs = (kvs, [], c) := by
  match kvs with
  | [] => simp [extractMembers]
  | (k, v) :: rest =>
    have hv : hasIntrinsic v = false ∧ hasIntrinsicM rest = false := by
      simpa [hasIntrinsicM, Bool.or_eq_false_iff] using h
    have h1 := extractVal_id c v hv.1
    have h2 := extractMembers_id c rest hv.2
    simp [extractMembers, h1, h2]

theorem extractEntries_id (c : Nat) (xs : List Json)
    (h : hasIntrinsicL xs = false) :
    extractEntries c xs = (xs, [], c) := by
  match xs with
  | [] => simp [extractEntries]
  | v :: rest =>
    have hv : hasIntrinsic v = false ∧ hasIntrinsicL rest = false := by
      simpa [hasIntrinsicL, Bool.or_eq_false_iff] using h
    have h1 := extractVal_id c v hv.1
    have h2 := extractEntries_id c rest hv.2
    simp [extractEntries, h1, h2]

theorem extractRoots_id (c : Nat) (xs : List Json)
    (h : hasIntrinsicL xs = false) :
    extractRoots c xs = (xs, [], c) := by
  match xs with
  | [] => simp [extractRoots]
  | v :: rest =>
    have hv : hasIntrinsic v = false ∧ hasIntrinsicL rest = false := by
      simpa [hasIntrinsicL, Bool.or_eq_false_iff] using h
    have h1 := extract_id c v hv.1
    have h2 := extractRoots_id c rest hv.2
    simp [extractRoots, h1, h2]

end

/-- `JSON.parse ∘ JSON.stringify` is the identity on the embedded trees. -/
theorem parseJson_pretty (j : Json) : parseJson (pretty j) = some j := by
  have hle := jfuel_le 0 j
  have h := parseVal_ser ((ser 0 j).length + 1) 0 j [] (by omega) (by rfl)
  rw [List.append_nil] at h
  simp only [parseJson, pretty]
  rw [h]
  rfl

/-! ### Role, dependency and tag resolution lemmas -/

theorem resolveRoleDeps_some (r : Json) (dep : Option Json)
    (hr : jsTruthy r = true) :
    resolveRoleDeps (some r) dep = (r, userDeps dep) := by
  cases dep with
  | none => simp [resolveRoleDeps, userDeps, hr]
  | some d =>
    by_cases hd : jsTruthy d = true
    · cases d <;> simp_all [resolveRoleDeps, userDeps, hr]
    · simp_all [resolveRoleDeps, userDeps, hr]

theorem resolveRoleDeps_none (dep : Option Json) :
    resolveRoleDeps none dep
      = (defaultRoleArn, .str "IamRoleStateMachineExecution" :: userDeps dep) := by
  cases dep with
  | none => simp [resolveRoleDeps, userDeps]
  | some d =>
    by_cases hd : jsTruthy d = true
    · cases d <;> simp_all [resolveRoleDeps, userDeps]
    · simp_all [resolveRoleDeps, userDeps]

theorem resolveTags_eq (p t : Option (List (String × Json))) :
    resolveTags p t = toTags p ++ toTags t := by
  cases t with
  | none => simp [resolveTags, toTags]
  | some l => simp [resolveTags]

/-- Anatomy of a successful `compileOne`: every component of the produced
records is the corresponding resolution of the inputs. -/
theorem compileOne_ok {ctx : Ctx} {name : String} {sm : StateMachineObj}
    {lid olid : String} {res : SMResource} {out : SMOutput}
    (h : compileOne ctx name sm = .ok ((lid, res), (olid, out))) :
    res.resourceType = "AWS::StepFunctions::StateMachine" ∧
      res.Properties.RoleArn = (resolveRoleDeps sm.role sm.dependsOn).1 ∧
      res.DependsOn = (resolveRoleDeps sm.role sm.dependsOn).2 ∧
      res.Properties.Tags = resolveTags ctx.providerTags sm.tags ∧
      res.Properties.StateMachineName = sm.name ∧
      lid = ctx.getLogicalId name ∧
      olid = ctx.getOutputLogicalId name ∧
      out = { Description := "Current StateMachine Arn"
              Value := .obj [("Ref", .str (ctx.getLogicalId name))] } := by
  simp only [compileOne] at h
  split at h
  · exact absurd h (by simp)
  · split at h
    · exact absurd h (by simp)
    · split at h
      · exact absurd h (by simp)
      · simp only [Except.ok.injEq, Prod.mk.injEq] at h
        obtain ⟨⟨h1, h2⟩, h3, h4⟩ := h
        subst h1; subst h2; subst h3; subst h4
        refine ⟨rfl, rfl, rfl, rfl, rfl, rfl, rfl, rfl⟩

/-- Any error in one machine aborts the whole run: the fold over a list
containing it can never return a template. -/
theorem compileAll_not_ok {ctx : Ctx} {name : String} {sm : StateMachineObj}
    {err : CompileErr} (pre post : List (String × StateMachineObj))
    (h : compileOne ctx name sm = .error err) :
    ∀ tpl t, ¬compileAll ctx (pre ++ (name, sm) :: post) tpl = .ok t := by
  induction pre with
  | nil =>
    intro tpl t
    simp [compileAll, h]
  | cons p pre' ih =>
    intro tpl t
    obtain ⟨n', sm'⟩ := p
    simp only [List.cons_append, compileAll]
    split
    · simp
    · exact ih _ _

/-! ### Claims -/

/-- **C1, counterexample.**  The claim states that after extraction no
reachable node of the mutated tree matches the Intrinsic Reference
predicate, *at whatever position it occurs (object value, array element, or
root)*.  This is false: an intrinsic node that is a direct array element is
recursed into by `getIntrinsicFunctions` (source line 45) instead of being
tested and replaced, so it survives extraction. -/
theorem claim1_counterexample :
    hasIntrinsic (extract 0 arrayIntrinsicDoc).1 = true := by
  simp [arrayIntrinsicDoc, extract, extractMembers, extractVal, extractRoots,
    isIntrinsic, fnColonColon, hasIntrinsic, hasIntrinsicL, hasIntrinsicM]

/-- **C1, amended.**  After extraction, no reachable node occupying an
*object-value* position matches the Intrinsic Reference predicate; intrinsic
nodes in array-element or root position are recursed into rather than
replaced and may survive. -/
theorem claim1_theorem (c : Nat) (v : Json) :
    objValuesClean (extract c v).1 = true :=
  extract_clean c v

/-- **C2, counterexample.**  The claim states that the set of `${token}`
markers appearing in the serialized definition text equals the key set of
the parameter map.  A document whose own string leaf spells a `${...}`
marker refutes it: the text contains the marker `foo` but no parameter map
entry is produced. -/
theorem claim2_counterexample :
    ∃ ds : DefString,
      buildDefinitionString sampleCtx (some dollarLeafDoc) = some ds ∧
        ¬markerList ds.textOf.data = ds.paramKeys := by
  have h : buildDefinitionString sampleCtx (some dollarLeafDoc)
      = some (.plain (pretty dollarLeafDoc)) := by
    simp only [buildDefinitionString, dollarLeafDoc, jsTruthy]
    simp [extract, extractMembers, extractVal, isIntrinsic, fnColonColon]
  refine ⟨.plain (pretty dollarLeafDoc), h, ?_⟩
  simp only [DefString.textOf, DefString.paramKeys, pretty, markerList]
  simp [dollarLeafDoc, ser, serMembers, escapeList, escChar, indentChars,
    scanMarkers]

/-- **C2, amended.**  For an object-shaped definition none of whose string
values or keys contains a dollar character, the `${token}` markers appearing
in the serialized definition text are exactly (even in order) the parameter
map's keys; in general the text may contain additional marker-shaped
substrings copied verbatim from the document. -/
theorem claim2_theorem (ctx : Ctx) (kvs : List (String × Json)) (ds : DefString)
    (hclean : cleanDoc (.obj kvs) = true)
    (hbuild : buildDefinitionString ctx (some (.obj kvs)) = some ds) :
    markerList ds.textOf.data = ds.paramKeys := by
  have hgood := extract_good 0 (.obj kvs) hclean
  have hmarks : markerList (pretty (extract 0 (.obj kvs)).1).data
      = (extract 0 (.obj kvs)).2.1.map Prod.fst := by
    have hser := ser_markers 0 (extract 0 (.obj kvs)).1 [] hgood.1
    rw [List.append_nil, scanMarkers_nil] at hser
    rw [pretty, markerList]
    rw [show (String.mk (ser 0 (extract 0 (.obj kvs)).1)).data
        = ser 0 (extract 0 (.obj kvs)).1 from rfl]
    rw [hser, List.append_nil, hgood.2]
  simp [buildDefinitionString, jsTruthy] at hbuild
  split at hbuild
  · -- no pairs: plain text
    next hEmp =>
    rw [Option.some.injEq] at hbuild
    subst hbuild
    simp only [DefString.textOf, DefString.paramKeys]
    rw [hmarks, List.isEmpty_iff.mp hEmp]
    simp
  · -- pairs: substitution construct
    next hEmp =>
    rw [Option.some.injEq] at hbuild
    subst hbuild
    simp only [DefString.textOf, DefString.paramKeys]
    rw [hmarks]
    have hkeys : ((extract 0 (.obj kvs)).2.1.map
          (fun kv => (kv.1, ctx.translate kv.2))).map Prod.fst
        = (extract 0 (.obj kvs)).2.1.map Prod.fst := by
      rw [List.map_map]
      rfl
    rw [fromPairs_self _ (by rw [hkeys]; exact extract_names_nodup 0 (.obj kvs))]
    rw [hkeys]

/-- **C3, counterexample.**  The claim states that a string-typed definition
yields the input text with newline/carriage-return escape sequences removed.
The input `a\nb` (four characters, with a literal backslash before the `n`)
refutes it under either reading: the code serializes it to `"a\\nb"` and the
global `\n`-removal then eats the escaped `n` together with *half of the
escaped backslash*, producing `"a\b"` — neither the serialization of the
input with CR/LF characters removed, nor the input with its textual `\n`
escape sequence removed. -/
theorem claim3_counterexample :
    strDefinitionString "a\\nb" = String.mk ['"', 'a', '\\', 'b', '"'] ∧
      ¬strDefinitionString "a\\nb"
          = String.mk (strStringify (stripNlCr ("a\\nb" : String).data)) ∧
      ¬strDefinitionString "a\\nb"
          = String.mk (strStringify (removeEsc ("a\\nb" : String).data)) := by
  refine ⟨?_, ?_, ?_⟩ <;> decide

/-- **C3, amended.**  For a (truthy) string definition containing no literal
backslash immediately followed by `n` or `r`, extraction is bypassed (the
assembled definition is the plain escape-stripped serialization) and the
definition text equals the serialization of the input with newline and
carriage-return characters removed.  Inputs containing a literal `\n`/`\r`
character pair are corrupted by the replacement. -/
theorem claim3_theorem (ctx : Ctx) (s : String) (hs : ¬s = "")
    (h : hasEscPair s.data = false) :
    buildDefinitionString ctx (some (.str s)) = some (.plain (strDefinitionString s)) ∧
      strDefinitionString s = String.mk (strStringify (stripNlCr s.data)) := by
  constructor
  · simp [buildDefinitionString, jsTruthy, hs]
  · rw [strDefinitionString, strStringify, strStringify]
    have hq := (removeEsc_escapeList s.data h ['"'] (by decide)).1
    rw [List.cons_append, removeEsc_cons_plain '"' _ (by decide), hq,
      show removeEsc ['"'] = ['"'] by simp [removeEsc]]
    simp

/-- **C3, witness.**  The amended theorem at the input `a⏎b` (a real newline
character): the serialized `\n` escape sequence is stripped, so the
definition text is `"ab"`. -/
theorem claim3_witness :
    ¬("a\nb" : String) = "" ∧ hasEscPair ("a\nb" : String).data = false ∧
      buildDefinitionString sampleCtx (some (.str "a\nb"))
        = some (.plain (strDefinitionString "a\nb")) ∧
      strDefinitionString "a\nb"
        = String.mk (strStringify (stripNlCr ("a\nb" : String).data)) ∧
      strDefinitionString "a\nb" = "\"ab\"" :=
  ⟨by decide, by decide,
    (claim3_theorem sampleCtx "a\nb" (by decide) (by decide)).1,
    (claim3_theorem sampleCtx "a\nb" (by decide) (by decide)).2,
    by decide⟩

/-- **C4.**  The version pinner: with the flag `false` it is the identity on
the assembled result; with the flag strictly `true` every parameter-map
value of a substitution template is passed through the version-resolution
collaborator; and on a plain-string definition it is a no-op even when the
flag is `true`. -/
theorem claim4_theorem (ctx : Ctx) :
    (∀ ds : Option DefString,
        applyExactVersion ctx (some (.bool false)) ds = .ok ds) ∧
      (∀ (t : String) (ps : List (String × Json)),
        applyExactVersion ctx (some (.bool true)) (some (.sub t ps))
          = .ok (some (.sub t
              (ps.map (fun kv => (kv.1, ctx.convertVersion kv.2)))))) ∧
      (∀ s : String,
        applyExactVersion ctx (some (.bool true)) (some (.plain s))
          = .ok (some (.plain s))) := by
  refine ⟨fun ds => rfl, fun t ps => rfl, fun s => rfl⟩

/-- **C5.**  Round-trip structural integrity: for a truthy, non-string
definition document containing zero intrinsic references, the assembler
emits the plain serialized text (no substitution template is built), and
parsing that text back yields a document structurally equal to the
original. -/
theorem claim5_theorem (ctx : Ctx) (j : Json) (hstr : ∀ s, ¬j = .str s)
    (htruthy : jsTruthy j = true) (hint : hasIntrinsic j = false) :
    buildDefinitionString ctx (some j) = some (.plain (pretty j)) ∧
      parseJson (pretty j) = some j := by
  refine ⟨?_, parseJson_pretty j⟩
  rcases j with _ | b | n | s | xs | kvs
  · simp [jsTruthy] at htruthy
  · simp [buildDefinitionString, htruthy, extract_id 0 _ hint]
  · simp [buildDefinitionString, htruthy, extract_id 0 _ hint]
  · exact absurd rfl (hstr s)
  · simp [buildDefinitionString, htruthy, extract_id 0 _ hint]
  · simp [buildDefinitionString, htruthy, extract_id 0 _ hint]

/-- **C5, witness.**  A concrete two-state pass machine document. -/
theorem claim5_witness :
    buildDefinitionString sampleCtx (some docSample5)
        = some (.plain (pretty docSample5)) ∧
      parseJson (pretty docSample5) = some docSample5 :=
  claim5_theorem sampleCtx docSample5 (fun s h => Json.noConfusion h) rfl
    (by simp [docSample5, hasIntrinsic, hasIntrinsicL, hasIntrinsicM,
      isIntrinsic, fnColonColon])

/-- **C9.**  Version pinning fires only on the strict boolean `true`: any
other value of `useExactVersion` (for example the string `"true"` or the
number `1`) leaves the assembled definition — in particular every
parameter-map value — untouched. -/
theorem claim9_theorem (ctx : Ctx) (v : Json) (hv : ¬v = .bool true)
    (ds : Option DefString) :
    applyExactVersion ctx (some v) ds = .ok ds := by
  cases v with
  | bool b =>
    cases b with
    | true => exact absurd rfl hv
    | false => rfl
  | null => rfl
  | num n => rfl
  | str s => rfl
  | arr xs => rfl
  | obj kvs => rfl

/-- **C9, witness.**  The truthy non-boolean values `"true"` and `1` do not
trigger pinning. -/
theorem claim9_witness :
    applyExactVersion sampleCtx (some (.str "true"))
        (some (.sub "t" [("v", .str "X")]))
      = .ok (some (.sub "t" [("v", .str "X")])) ∧
      applyExactVersion sampleCtx (some (.num 1))
          (some (.sub "t" [("v", .str "X")]))
        = .ok (some (.sub "t" [("v", .str "X")])) :=
  ⟨claim9_theorem sampleCtx (.str "true") (fun h => Json.noConfusion h) _,
    claim9_theorem sampleCtx (.num 1) (fun h => Json.noConfusion h) _⟩

/-- **C10.**  A state machine that passes schema validation with no
`definition` but `useExactVersion: true` crashes: `DefinitionString` is
still `undefined` when line 118 evaluates `DefinitionString['Fn::Sub']`, so
compilation fails with a `TypeError` instead of treating pinning as a
no-op. -/
theorem claim10_theorem (ctx : Ctx) (name : String) (sm : StateMachineObj)
    (hdef : sm.definition = none)
    (hflag : sm.useExactVersion = some (.bool true))
    (hjoi : ctx.joiError sm = none) :
    compileOne ctx name sm = .error .typeError := by
  simp [compileOne, hjoi, hdef, hflag, lintStep, buildDefinitionString,
    applyExactVersion]

/-- **C10, witness.**  A concrete definition-less machine with
`useExactVersion: true`. -/
theorem claim10_witness :
    compileOne sampleCtx "mySM"
        { definition := none, role := none, dependsOn := none, tags := none,
          name := none, useExactVersion := some (.bool true) }
      = .error .typeError :=
  claim10_theorem sampleCtx "mySM" _ rfl rfl rfl

/-- **C6.**  Role and dependency resolution of a compiled definition: a
truthy explicit role is used verbatim with no role dependency added; absent
a role, the resource's role reference is the conventionally-named shared
execution role and that role's identity is the first dependency; any
user-declared dependency (array or single value) follows the role
dependency in declared order with no de-duplication. -/
theorem claim6_theorem (ctx : Ctx) (name : String) (sm : StateMachineObj)
    (lid olid : String) (res : SMResource) (out : SMOutput)
    (h : compileOne ctx name sm = .ok ((lid, res), (olid, out))) :
    (∀ r : Json, sm.role = some r → jsTruthy r = true →
        res.Properties.RoleArn = r ∧ res.DependsOn = userDeps sm.dependsOn) ∧
      (sm.role = none →
        res.Properties.RoleArn = defaultRoleArn ∧
          res.DependsOn
            = Json.str "IamRoleStateMachineExecution" :: userDeps sm.dependsOn) ∧
      (sm.dependsOn = none → userDeps sm.dependsOn = []) ∧
      (∀ xs : List Json, sm.dependsOn = some (.arr xs) → userDeps sm.dependsOn = xs) ∧
      (∀ dv : Json, sm.dependsOn = some dv → jsTruthy dv = true →
        (∀ xs : List Json, ¬dv = .arr xs) → userDeps sm.dependsOn = [dv]) := by
  obtain ⟨_, hrole, hdeps, _⟩ := compileOne_ok h
  refine ⟨?_, ?_, ?_, ?_, ?_⟩
  · intro r hr htr
    rw [hr] at hrole hdeps
    rw [resolveRoleDeps_some r sm.dependsOn htr] at hrole hdeps
    exact ⟨hrole, hdeps⟩
  · intro hr
    rw [hr] at hrole hdeps
    rw [resolveRoleDeps_none sm.dependsOn] at hrole hdeps
    exact ⟨hrole, hdeps⟩
  · intro hd; rw [hd]; rfl
  · intro xs hd
    rw [hd]
    simp [userDeps, jsTruthy]
  · intro dv hd htr hna
    rw [hd]
    cases dv with
    | arr xs => exact absurd rfl (hna xs)
    | null => simp [jsTruthy] at htr
    | bool b => simp [userDeps, htr]
    | num n => simp [userDeps, htr]
    | str s => simp [userDeps, htr]
    | obj kvs => simp [userDeps, htr]

/-- **C7.**  Tag resolution of a compiled definition: the resource's tag
sequence is the normalized provider-level tags followed by the normalized
definition-level tags (values coerced to strings), with no de-duplication —
including the spec's `{a:1}` / `{b:2}` example and a duplicate-key example
retaining both entries. -/
theorem claim7_theorem (ctx : Ctx) (name : String) (sm : StateMachineObj)
    (lid olid : String) (res : SMResource) (out : SMOutput)
    (h : compileOne ctx name sm = .ok ((lid, res), (olid, out))) :
    res.Properties.Tags = toTags ctx.providerTags ++ toTags sm.tags ∧
      toTags (some [("a", .num 1)]) ++ toTags (some [("b", .num 2)])
        = [{ Key := "a", Value := "1" }, { Key := "b", Value := "2" }] ∧
      toTags (some [("k", .num 1)]) ++ toTags (some [("k", .num 2)])
        = [{ Key := "k", Value := "1" }, { Key := "k", Value := "2" }] := by
  obtain ⟨_, _, _, htags, _⟩ := compileOne_ok h
  refine ⟨by rw [htags, resolveTags_eq], ?_, ?_⟩
  · simp only [toTags, List.map_cons, List.map_nil, jsToString, intChars]
    rw [natChars]
    norm_num
    rw [natChars]
    norm_num
    exact ⟨rfl, rfl⟩
  · simp only [toTags, List.map_cons, List.map_nil, jsToString, intChars]
    rw [natChars]
    norm_num
    rw [natChars]
    norm_num
    exact ⟨rfl, rfl⟩

/-- **C8.**  Validation failures abort a definition's compilation with a
descriptive error naming it, before any record is produced: a schema
rejection raises the malformed-machine error, an enabled-and-failing
structural lint raises the invalid-definition error, and any such error
makes the whole run (over any machine list containing the definition)
return no template at all. -/
theorem claim8_theorem (ctx : Ctx) (name : String) (sm : StateMachineObj) :
    (∀ e : String, ctx.joiError sm = some e →
        compileOne ctx name sm = .error (.malformed name e)) ∧
      (∀ (d : Json) (errs : String), ctx.joiError sm = none →
        sm.definition = some d → jsTruthy d = true → ctx.validate = true →
        ctx.aslValid d = (false, errs) →
        compileOne ctx name sm = .error (.invalidDefinition name errs)) ∧
      (∀ (err : CompileErr) (pre post : List (String × StateMachineObj))
          (tpl t : CFTemplate), compileOne ctx name sm = .error err →
        ¬compileAll ctx (pre ++ (name, sm) :: post) tpl = .ok t) := by
  refine ⟨?_, ?_, ?_⟩
  · intro e he
    simp [compileOne, he]
  · intro d errs hjoi hdef htr hval hasl
    simp [compileOne, hjoi, lintStep, hdef, htr, hval, hasl]
  · intro err pre post tpl t herr
    exact compileAll_not_ok pre post herr tpl t

/-- **C6, witness.**  A concrete machine with no role and a single non-array
dependency. -/
theorem claim6_witness :
    compileOne sampleCtx "mySm" smSample6
        = .ok (("mySmStateMachine", resSample6), ("mySmStateMachineArn", outSample)) ∧
      resSample6.Properties.RoleArn = defaultRoleArn ∧
      resSample6.DependsOn
        = Json.str "IamRoleStateMachineExecution" :: userDeps smSample6.dependsOn := by
  have h : compileOne sampleCtx "mySm" smSample6
      = .ok (("mySmStateMachine", resSample6), ("mySmStateMachineArn", outSample)) := rfl
  exact ⟨h, ((claim6_theorem sampleCtx "mySm" smSample6 _ _ _ _ h).2.1 rfl).1,
    ((claim6_theorem sampleCtx "mySm" smSample6 _ _ _ _ h).2.1 rfl).2⟩

/-- **C7, witness.**  A concrete machine with provider tag `a` and
definition tag `b`. -/
theorem claim7_witness :
    compileOne ctxSample7 "mySm" smSample7
        = .ok (("mySmStateMachine", resSample7), ("mySmStateMachineArn", outSample)) ∧
      resSample7.Properties.Tags
        = toTags ctxSample7.providerTags ++ toTags smSample7.tags ∧
      resSample7.Properties.Tags
        = [{ Key := "a", Value := "1" }, { Key := "b", Value := "2" }] := by
  have h : compileOne ctxSample7 "mySm" smSample7
      = .ok (("mySmStateMachine", resSample7), ("mySmStateMachineArn", outSample)) := rfl
  exact ⟨h, (claim7_theorem ctxSample7 "mySm" smSample7 _ _ _ _ h).1, rfl⟩

/-- **C8, witness.**  A context whose schema collaborator rejects every
machine: compilation of a one-machine list yields the malformed error and
never the unchanged empty template. -/
theorem claim8_witness :
    compileOne ctxSample8 "mySm" smSample6
        = .error (.malformed "mySm" "bad shape") ∧
      ¬compileAll ctxSample8 ([] ++ ("mySm", smSample6) :: [])
          { Resources := [], Outputs := [] }
        = .ok { Resources := [], Outputs := [] } := by
  constructor
  · exact (claim8_theorem ctxSample8 "mySm" smSample6).1 "bad shape" rfl
  · exact (claim8_theorem ctxSample8 "mySm" smSample6).2.2
      (.malformed "mySm" "bad shape") [] [] _ _
      ((claim8_theorem ctxSample8 "mySm" smSample6).1 "bad shape" rfl)

/-- **C2, witness.**  The amended theorem applied to a concrete dollar-free
document with one intrinsic reference. -/
theorem claim2_witness :
    ∃ ds : DefString,
      buildDefinitionString sampleCtx (some oneRefDoc) = some ds ∧
        markerList ds.textOf.data = ds.paramKeys := by
  have h : ∃ ds : DefString,
      buildDefinitionString sampleCtx (some oneRefDoc) = some ds := by
    simp [buildDefinitionString, oneRefDoc, jsTruthy, extract, extractMembers,
      extractVal, isIntrinsic, fnColonColon]
  obtain ⟨ds, hds⟩ := h
  exact ⟨ds, hds, claim2_theorem sampleCtx _ ds (by
    simp [cleanDoc, cleanDocM, noDollar, oneRefDoc]) hds⟩

end SSM
